import Mathlib

/-!
# pdfoptimize: option resolution, execution order and size report

A shallow embedding of `main.go` of `jojomi/pdfoptimize`.

* Go strings are Lean `String`s; the only string operations the program uses are
  concatenation (through `fmt.Sprintf`), equality and `strings.TrimSuffix`.
* The package-level flag variables are the fields of `Flags`.
* `int64` values are `Int`s; the one place where the program multiplies
  (`div *= unit` in `formatBytes`) wraps explicitly modulo `2^64`.
* `float64` values are `F64`: a rational that is representable in binary64, an
  infinity, or NaN.  Every arithmetic operation rounds the exact result to the
  nearest representable value, ties to even, as IEEE 754 prescribes.
* The external engine (`pdfopt`), the file system and the two output streams are
  not modelled in themselves: `mainHandler` records what it calls and prints, and
  takes what the outside world answers as the argument `World`.
-/

namespace PdfOptimize

/-! ## Go library functions used by the program -/

/-- Go `strings.HasSuffix`:
`len(s) >= len(suffix) && s[len(s)-len(suffix):] == suffix`. -/
def HasSuffix (s suffix : String) : Bool :=
  decide (s.length ≥ suffix.length) && decide (s.data.drop (s.length - suffix.length) = suffix.data)

/-- Go `strings.TrimSuffix`:
`if HasSuffix(s, suffix) { return s[:len(s)-len(suffix)] }; return s`. -/
def TrimSuffix (s suffix : String) : String :=
  if HasSuffix s suffix then String.mk (s.data.take (s.length - suffix.length)) else s

/-- The verb `%d` of `fmt` on an integer: decimal digits, with a leading `-` when negative. -/
def fmtD (i : Int) : String := toString i

/-! ## Styles and flags (lines 12-30) -/

/-- Go `type Style string`. -/
abbrev Style := String

def StyleScreen : Style := "screen"
def StyleEbook : Style := "ebook"
def StylePrint : Style := "print"
def StylePrepress : Style := "prepress"

/-- The package-level variables bound to the command-line flags. -/
structure Flags where
  inplace : Bool
  silent : Bool
  style : Style
  screen : Bool
  ebook : Bool
  printFlag : Bool
  prepress : Bool
  dpi : Int
deriving DecidableEq, Repr

/-- The values of the flag variables before any flag is parsed (their declared defaults). -/
def Flags.default : Flags :=
  { inplace := false, silent := false, style := "", screen := false, ebook := false,
    printFlag := false, prepress := false, dpi := 0 }

/-! ## `rootCmd.Args` (lines 34-45) -/

/-- The positional-argument validator `rootCmd.Args`: the returned error, `none` for `nil`. -/
def rootCmdArgs (g : Flags) (args : List String) : Option String :=
  if args.length < 1 ∨ args.length > 2 then
    some "requires 1 or 2 arguments"
  else if g.inplace = true ∧ args.length > 1 then
    some "output argument not allowed with --inplace flag"
  else if g.style ≠ "" ∧ g.style ≠ StyleScreen ∧ g.style ≠ StyleEbook ∧ g.style ≠ StylePrint
      ∧ g.style ≠ StylePrepress then
    some "style must be one of: screen, ebook, print, prepress"
  else
    none

/-! ## `styleValueWrapper` (lines 63-88) -/

/-- The struct `styleValueWrapper`. Its field `target *Style` is `none` for the nil pointer
and `some v` for a pointer to a variable that currently holds `v`. -/
structure styleValueWrapper where
  target : Option Style
deriving DecidableEq, Repr

/-- The method `(*styleValueWrapper).Set`: the returned error (`none` is `nil`) and the
wrapper afterwards. -/
def styleValueWrapper.Set (s : styleValueWrapper) (val : String) :
    Option String × styleValueWrapper :=
  if val = StyleScreen ∨ val = StylePrint ∨ val = StyleEbook ∨ val = StylePrepress then
    match s.target with
    | some _ => (none, { target := some val })
    | none => (none, s)
  else
    (some "style must be one of: screen, print, ebook", s)

/-- The method `(*styleValueWrapper).String`. -/
def styleValueWrapper.String (s : styleValueWrapper) : String :=
  match s.target with
  | some v => v
  | none => ""

/-! ## `mainHandler`: profile and output path (lines 98-120) -/

/-- Lines 101-112 of `mainHandler`: the value of `style` after the four `if`s. -/
def resolveStyle (g : Flags) : Style :=
  let style := if g.style = "" then StyleScreen else g.style
  let style := if g.ebook then StyleEbook else style
  let style := if g.printFlag then StylePrint else style
  let style := if g.prepress then StylePrepress else style
  style

/-- Lines 98-99 and 114-120 of `mainHandler`: the value of `output`, given the value of
`style` after line 112. `args` is non-empty whenever `mainHandler` runs; on the empty list
`args[0]` panics, which is `none`. -/
def resolveOutput (g : Flags) (args : List String) (style : Style) : Option String :=
  match args with
  | [] => none
  | input :: rest =>
    match rest with
    | out :: _ => some out
    | [] =>
      if g.inplace then some input
      else some (TrimSuffix input ".pdf" ++ "." ++ style ++ ".pdf")

/-! ## Machine arithmetic -/

/-- The value an `int64` holds after an arithmetic result `x`: `x` modulo `2^64`, taken in
`[-2^63, 2^63)`. -/
def wrap64 (x : Int) : Int := (x + 2 ^ 63) % 2 ^ 64 - 2 ^ 63

/-- A `float64`: a finite value (always one that binary64 represents), an infinity with its
sign, or NaN. Zero carries no sign: the program obtains its floats from integers, which
convert to `+0` only, and none of its operations yields `-0`. -/
inductive F64 where
  | fin (q : ℚ)
  | inf (neg : Bool)
  | nan
deriving DecidableEq, Repr

/-- The integer nearest to `x`; of two equally near, the even one. -/
def roundHalfEven (x : ℚ) : ℤ :=
  let f := ⌊x⌋
  let r := x - f
  if r < 1 / 2 then f else if 1 / 2 < r then f + 1 else if f % 2 = 0 then f else f + 1

/-- Rounding of an exact result to binary64, round-to-nearest-even: 53 significant bits for
normal values, the fixed spacing `2^-1074` below `2^-1022`, and an infinity when the rounded
value reaches `2^1024`. -/
def F64.round (x : ℚ) : F64 :=
  if x = 0 then F64.fin 0
  else
    let e : ℤ := max (Int.log 2 |x|) (-1022)
    let ulp : ℚ := 2 ^ (e - 52)
    let r : ℚ := (roundHalfEven (x / ulp) : ℚ) * ulp
    if (2 : ℚ) ^ (1024 : ℕ) ≤ |r| then F64.inf (decide (x < 0)) else F64.fin r

/-- The conversion `float64(i)` of an integer. -/
def F64.ofInt (i : Int) : F64 := F64.round i

/-- The quotient `x / y` of two `float64`s. -/
def F64.div : F64 → F64 → F64
  | F64.nan, _ => F64.nan
  | _, F64.nan => F64.nan
  | F64.inf _, F64.inf _ => F64.nan
  | F64.inf s, F64.fin b => F64.inf (xor s (decide (b < 0)))
  | F64.fin _, F64.inf _ => F64.fin 0
  | F64.fin a, F64.fin b =>
    if b = 0 then (if a = 0 then F64.nan else F64.inf (decide (a < 0)))
    else F64.round (a / b)

/-- The product `x * y` of two `float64`s. -/
def F64.mul : F64 → F64 → F64
  | F64.nan, _ => F64.nan
  | _, F64.nan => F64.nan
  | F64.inf s, F64.inf t => F64.inf (xor s t)
  | F64.inf s, F64.fin b => if b = 0 then F64.nan else F64.inf (xor s (decide (b < 0)))
  | F64.fin a, F64.inf t => if a = 0 then F64.nan else F64.inf (xor (decide (a < 0)) t)
  | F64.fin a, F64.fin b => F64.round (a * b)

/-- The comparison `x > 0`; false on NaN. -/
def F64.gtZero : F64 → Bool
  | F64.fin q => decide (0 < q)
  | F64.inf neg => !neg
  | F64.nan => false

/-- Go `math.Abs`. -/
def F64.abs : F64 → F64
  | F64.fin q => F64.fin |q|
  | F64.inf _ => F64.inf false
  | F64.nan => F64.nan

/-- Decimal notation of `s / 10^prec` with exactly `prec` digits after the point, preceded by
`-` when `neg`. -/
def fmtScaled (prec : Nat) (neg : Bool) (s : Nat) : String :=
  let digits := toString (s % 10 ^ prec)
  (if neg then "-" else "") ++ toString (s / 10 ^ prec) ++
    (if prec = 0 then ""
     else "." ++ String.mk (List.replicate (prec - digits.length) '0') ++ digits)

/-- Decimal notation of a rational with exactly `prec` digits after the point, the value
rounded to the nearest such decimal, ties to even. -/
def fmtFixed (prec : Nat) (q : ℚ) : String :=
  fmtScaled prec (decide (q < 0)) (roundHalfEven (|q| * 10 ^ prec)).toNat

/-- The verb `%.<prec>f` of `fmt` on a `float64`. -/
def fmtF (prec : Nat) : F64 → String
  | F64.fin q => fmtFixed prec q
  | F64.inf false => "+Inf"
  | F64.inf true => "-Inf"
  | F64.nan => "NaN"

/-! ## `formatBytes` (lines 188-199) -/

/-- The constant `unit` of `formatBytes`. -/
def unit : Int := 1024

/-- The loop of lines 194-197, `for n := ...; n >= unit; n /= unit`, started in the state
`n, div, exp`: the values of `div` and `exp` when it exits. The first argument bounds the
number of iterations; `none` when the bound is reached with the loop still running. -/
def formatBytesLoop : Nat → Int → Int → Nat → Option (Int × Nat)
  | 0, n, div, exp => if n ≥ unit then none else some (div, exp)
  | fuel + 1, n, div, exp =>
    if n ≥ unit then formatBytesLoop fuel (Int.tdiv n unit) (wrap64 (div * unit)) (exp + 1)
    else some (div, exp)

/-- The function `formatBytes`. `none` stands for a run that does not return a string: the
index `"KMGTPE"[exp]` out of range (a panic), or the loop not finished. -/
def formatBytes (bytes : Int) : Option String :=
  if bytes < unit then some (fmtD bytes ++ " B")
  else
    match formatBytesLoop bytes.toNat (Int.tdiv bytes unit) unit 0 with
    | none => none
    | some (div, exp) =>
      match "KMGTPE".data.get? exp with
      | none => none
      | some c =>
        some (fmtF 1 (F64.div (F64.ofInt bytes) (F64.ofInt div)) ++ " " ++ String.singleton c
          ++ "B")

/-! ## `mainHandler`: the size report (lines 173-184) -/

/-- Line 175: `float64(oldSize-newSize) / float64(oldSize) * 100`. -/
def reduction (oldSize newSize : Int) : F64 :=
  F64.mul (F64.div (F64.ofInt (wrap64 (oldSize - newSize))) (F64.ofInt oldSize)) (F64.fin 100)

/-- Lines 180-184: the line that reports the change. -/
def changeLine (oldSize newSize : Int) : String :=
  if (reduction oldSize newSize).gtZero then
    "Change: " ++ fmtF 0 (reduction oldSize newSize).abs ++ "% smaller\n"
  else
    "Change: " ++ fmtF 0 (reduction oldSize newSize).abs ++ "% LARGER\n"

/-! ## `mainHandler` as a whole (lines 97-186) -/

/-- A method call on the engine handle `p` returned by `pdfopt.NewPDFOpt(input)`. -/
inductive Call where
  | ForPrint
  | ForEbook
  | ForScreen
  | ForPrepress
  | ImageDPI (dpi : Int)
  | OptimizeInplace
  | Optimize (output : String)
deriving DecidableEq, Repr

/-- What `mainHandler` does to the outside, in the order in which it does it. -/
inductive Event where
  | newPDFOpt (input : String)
  | call (c : Call)
  | stat (path : String)
  | stdout (text : String)
  | stderr (text : String)
  | exit (code : Nat)
  | panic
deriving DecidableEq, Repr

/-- What the outside answers during one run: the result of `os.Stat(input)` (the size, or
the error), the error of `Optimize`/`OptimizeInplace` (`none` for `nil`), and the result of
`os.Stat(output)` afterwards. -/
structure World where
  statInput : Except String Int
  optimizeErr : Option String
  statOutput : Except String Int

/-- Lines 140-149: the `switch` that picks the profile operation. -/
def profileCalls (g : Flags) (style : Style) : List Call :=
  if style = StylePrint ∨ g.printFlag = true then [Call.ForPrint]
  else if style = StyleEbook ∨ g.ebook = true then [Call.ForEbook]
  else if style = StyleScreen ∨ g.screen = true then [Call.ForScreen]
  else if style = StylePrepress ∨ g.prepress = true then [Call.ForPrepress]
  else []

/-- Lines 151-153: the optional DPI override. -/
def dpiCalls (g : Flags) : List Call :=
  if g.dpi > 0 then [Call.ImageDPI g.dpi] else []

/-- Lines 155-159: the call that runs the optimization. -/
def optimizeCall (g : Flags) (output : String) : Call :=
  if g.inplace then Call.OptimizeInplace else Call.Optimize output

/-- Lines 166-185, entered when the optimization succeeded: the second `os.Stat` and the
report. `oldSize` is `oldInfo.Size()`. A call of `formatBytes` that does not return ends the
run in `Event.panic`. -/
def reportEvents (output : String) (oldSize : Int) (w : World) : List Event :=
  match w.statOutput with
  | Except.error err =>
    [Event.stat output, Event.stderr ("Error reading new file size: " ++ err ++ "\n"),
      Event.exit 1]
  | Except.ok newSize =>
    match formatBytes oldSize with
    | none => [Event.stat output, Event.panic]
    | some old =>
      match formatBytes newSize with
      | none => [Event.stat output, Event.stdout ("Original size: " ++ old ++ "\n"), Event.panic]
      | some new =>
        [Event.stat output, Event.stdout ("Original size: " ++ old ++ "\n"),
          Event.stdout ("New size: " ++ new ++ "\n"), Event.stdout (changeLine oldSize newSize)]

/-- Lines 138-185: everything from the `switch` on. `oldSize` is `none` in silent mode,
where `oldInfo` is never read. -/
def optimizeAndReport (g : Flags) (style : Style) (output : String) (oldSize : Option Int)
    (w : World) : List Event :=
  let calls : List Event :=
    (profileCalls g style ++ dpiCalls g ++ [optimizeCall g output]).map Event.call
  match w.optimizeErr with
  | some err => calls ++ [Event.stderr ("Error optimizing PDF: " ++ err ++ "\n"), Event.exit 1]
  | none =>
    match oldSize with
    | none => calls
    | some old => calls ++ reportEvents output old w

/-- The function `mainHandler`, run with the flag variables `g` and the positional arguments
`args` in the world `w`: the trace of its events. On an empty `args` the first statement,
`args[0]`, panics. -/
def mainHandler (g : Flags) (args : List String) (w : World) : List Event :=
  match args with
  | [] => [Event.panic]
  | input :: _ =>
    let style := resolveStyle g
    match resolveOutput g args style with
    | none => [Event.panic]
    | some output =>
      if g.silent then
        Event.newPDFOpt input :: optimizeAndReport g style output none w
      else
        let announce : List Event :=
          [Event.newPDFOpt input,
           Event.stdout ("Optimizing " ++ input ++ " to " ++ output ++ " for " ++ style ++ "...\n"),
           Event.stat input]
        match w.statInput with
        | Except.error err =>
          announce ++
            [Event.stderr ("Error reading original file size: " ++ err ++ "\n"), Event.exit 1]
        | Except.ok oldSize =>
          announce ++ optimizeAndReport g style output (some oldSize) w

/-- The method calls on the engine handle that occur in a trace, in order. -/
def engineCalls (t : List Event) : List Call :=
  t.filterMap (fun e => match e with
    | Event.call c => some c
    | _ => none)

/-! ## Validation before `mainHandler` runs (lines 46 and 60) -/

/-- The names passed to `MarkFlagsMutuallyExclusive` on line 60. -/
def mutuallyExclusiveFlags : List String := ["style", "print", "ebook", "screen", "prepress"]

/-- Why an invocation ended before `Run`. -/
inductive ValidationError where
  | args (msg : String)
  | flagGroup (conflicting : List String)
deriving DecidableEq, Repr

/-- Modelled from the spec: the check that the command library cobra, a dependency whose
source is not part of this repository, performs for the group registered on line 60: at most
one profile-selecting flag may be supplied, and supplying more than one fails with an error
naming the conflict. `supplied` lists the names of the flags present on the command line. -/
def validateFlagGroups (supplied : List String) : Option ValidationError :=
  let conflicting := mutuallyExclusiveFlags.filter (fun f => decide (f ∈ supplied))
  if conflicting.length ≤ 1 then none else some (ValidationError.flagGroup conflicting)

/-- Modelled from the spec: what `rootCmd.Execute()`, a method of the same library, does once
the flags are parsed into `g`: the validator `Args`, then the flag-group check, and only then
`Run`, which is `mainHandler`. -/
def execute (g : Flags) (supplied : List String) (args : List String) (w : World) :
    Except ValidationError (List Event) :=
  match rootCmdArgs g args with
  | some msg => Except.error (ValidationError.args msg)
  | none =>
    match validateFlagGroups supplied with
    | some e => Except.error e
    | none => Except.ok (mainHandler g args w)

/-! ## Vocabulary of the statements -/

/-- How many of the five profile-selecting flag variables are set: `style` non-empty, or a
shorthand true. -/
def profileFlagCount (g : Flags) : Nat :=
  (if g.style = "" then 0 else 1) + g.screen.toNat + g.ebook.toNat + g.printFlag.toNat
    + g.prepress.toNat

/-- The four recognised profile names. -/
def styleNames : List Style := [StyleScreen, StyleEbook, StylePrint, StylePrepress]

/-- The engine operation that belongs to a profile name. -/
def profileOp (style : Style) : Option Call :=
  if style = StyleScreen then some Call.ForScreen
  else if style = StyleEbook then some Call.ForEbook
  else if style = StylePrint then some Call.ForPrint
  else if style = StylePrepress then some Call.ForPrepress
  else none

/-! ## Profile resolution -/

/-- C1: when at most one of the five profile-selecting flags is set and `style` is empty or
a recognised name, the profile resolved by lines 101-112 is the value of `style` if it is set,
the profile of the shorthand that is true otherwise, and `screen` when none is set; it is
always one of the four names. -/
theorem C1_profile_resolution (g : Flags) (hone : profileFlagCount g ≤ 1)
    (hvalid : g.style = "" ∨ g.style ∈ styleNames) :
    (g.style ≠ "" → resolveStyle g = g.style) ∧
    (g.screen = true → resolveStyle g = StyleScreen) ∧
    (g.ebook = true → resolveStyle g = StyleEbook) ∧
    (g.printFlag = true → resolveStyle g = StylePrint) ∧
    (g.prepress = true → resolveStyle g = StylePrepress) ∧
    (profileFlagCount g = 0 → resolveStyle g = StyleScreen) ∧
    resolveStyle g ∈ styleNames := by
  obtain ⟨inplace, silent, style, screen, ebook, printFlag, prepress, dpi⟩ := g
  simp only [styleNames, List.mem_cons, List.mem_singleton, List.not_mem_nil, or_false] at hvalid
  rcases hvalid with h | h | h | h | h <;>
    cases screen <;> cases ebook <;> cases printFlag <;> cases prepress <;>
    simp_all [profileFlagCount, resolveStyle, styleNames, StyleScreen, StyleEbook, StylePrint,
      StylePrepress]

/-- C1 at the flag state of `--style ebook` alone: the hypotheses hold and the resolved
profile is `ebook`. -/
theorem C1_profile_resolution_witness :
    profileFlagCount { Flags.default with style := "ebook" } ≤ 1 ∧
    ({ Flags.default with style := "ebook" } : Flags).style ∈ styleNames ∧
    resolveStyle { Flags.default with style := "ebook" } = "ebook" :=
  ⟨by decide, by decide,
    (C1_profile_resolution { Flags.default with style := "ebook" } (by decide)
      (Or.inr (by decide))).1 (by decide)⟩

/-! ## Validation -/

/-- C6: `rootCmd.Args` returns an error exactly when the number of positional arguments is
not 1 or 2, or `--inplace` is set together with a second argument, or the style is non-empty
and not a recognised name; an output argument together with `--inplace` is always rejected;
and a wrong argument count is what is reported whenever the count is wrong. -/
theorem C6_args_validation (g : Flags) (args : List String) :
    ((rootCmdArgs g args).isSome = true ↔
      (args.length ≠ 1 ∧ args.length ≠ 2) ∨ (g.inplace = true ∧ 2 ≤ args.length) ∨
      (g.style ≠ "" ∧ g.style ∉ styleNames)) ∧
    (g.inplace = true → 2 ≤ args.length → (rootCmdArgs g args).isSome = true) ∧
    ((args.length ≠ 1 ∧ args.length ≠ 2) →
      rootCmdArgs g args = some "requires 1 or 2 arguments") := by
  have hnames : g.style ∉ styleNames ↔ (g.style ≠ StyleScreen ∧ g.style ≠ StyleEbook ∧
      g.style ≠ StylePrint ∧ g.style ≠ StylePrepress) := by
    simp [styleNames]
  refine ⟨?_, ?_, ?_⟩
  · rw [hnames]
    unfold rootCmdArgs
    split_ifs with h1 h2 h3
    · simp only [Option.isSome_some, true_iff]
      left; omega
    · simp only [Option.isSome_some, true_iff]
      right; left; exact ⟨h2.1, by omega⟩
    · simp only [Option.isSome_some, true_iff]
      right; right; exact h3
    · simp only [Option.isSome_none, Bool.false_eq_true, false_iff]
      rintro (h | h | h)
      · omega
      · exact h2 ⟨h.1, by omega⟩
      · exact h3 h
  · intro hin hlen
    unfold rootCmdArgs
    split_ifs with h1 h2 h3
    · rfl
    · rfl
    · rfl
    · exact absurd ⟨hin, by omega⟩ h2
  · intro hlen
    unfold rootCmdArgs
    rw [if_pos (by omega)]

/-- C7: `Set(val)` succeeds exactly when `val` is one of the four names, literally; on
success a non-nil target holds `val` afterwards; on failure an error is returned and the
wrapper, with its target, is as before. A name in another case is not accepted. -/
theorem C7_style_set (s : styleValueWrapper) (val : String) :
    ((s.Set val).1 = none ↔ val ∈ styleNames) ∧
    (val ∈ styleNames → (s.Set val).2.target = s.target.map (fun _ => val)) ∧
    (val ∉ styleNames → (s.Set val).1.isSome = true ∧ (s.Set val).2 = s) ∧
    (s.Set "Screen").1.isSome = true := by
  have hnames : val ∈ styleNames ↔
      (val = StyleScreen ∨ val = StylePrint ∨ val = StyleEbook ∨ val = StylePrepress) := by
    simp only [styleNames, List.mem_cons, List.mem_singleton, List.not_mem_nil, or_false]
    tauto
  refine ⟨?_, ?_, ?_, ?_⟩
  · rw [hnames]
    unfold styleValueWrapper.Set
    split_ifs with h
    · cases s.target <;> simp [h]
    · simp [h]
  · intro hv
    rw [hnames] at hv
    unfold styleValueWrapper.Set
    rw [if_pos hv]
    obtain ⟨t⟩ := s
    cases t <;> rfl
  · intro hv
    rw [hnames] at hv
    unfold styleValueWrapper.Set
    rw [if_neg hv]
    exact ⟨rfl, rfl⟩
  · unfold styleValueWrapper.Set
    rw [if_neg (by decide)]
    rfl

/-- C8: when two distinct flags of the group `style`, `print`, `ebook`, `screen`, `prepress`
are both supplied, the invocation ends in a validation error: `mainHandler` is not run, so no
engine call is made and nothing is written. -/
theorem C8_conflicting_profile_flags (g : Flags) (supplied args : List String) (w : World)
    (a b : String) (ha : a ∈ mutuallyExclusiveFlags) (hb : b ∈ mutuallyExclusiveFlags)
    (hab : a ≠ b) (hsa : a ∈ supplied) (hsb : b ∈ supplied) :
    ∃ e, execute g supplied args w = Except.error e := by
  have hconf : ∃ e, validateFlagGroups supplied = some e := by
    unfold validateFlagGroups
    have hlen : ¬ (mutuallyExclusiveFlags.filter (fun f => decide (f ∈ supplied))).length ≤ 1 := by
      intro hle
      have hma : a ∈ mutuallyExclusiveFlags.filter (fun f => decide (f ∈ supplied)) :=
        List.mem_filter.mpr ⟨ha, by simpa using hsa⟩
      have hmb : b ∈ mutuallyExclusiveFlags.filter (fun f => decide (f ∈ supplied)) :=
        List.mem_filter.mpr ⟨hb, by simpa using hsb⟩
      generalize mutuallyExclusiveFlags.filter (fun f => decide (f ∈ supplied)) = l at hle hma hmb
      match l, hle, hma, hmb with
      | [], _, hma, _ => simp at hma
      | [x], _, hma, hmb =>
        simp only [List.mem_singleton] at hma hmb
        exact hab (hma.trans hmb.symm)
      | _ :: _ :: _, hle, _, _ => simp at hle
    simp only [if_neg hlen]
    exact ⟨_, rfl⟩
  obtain ⟨e, he⟩ := hconf
  unfold execute
  cases hargs : rootCmdArgs g args with
  | some msg => exact ⟨_, rfl⟩
  | none => simp only [he]; exact ⟨_, rfl⟩

/-- C8 at `--screen --ebook doc.pdf`: the hypotheses hold and the run ends in an error. -/
theorem C8_conflicting_profile_flags_witness :
    "screen" ∈ mutuallyExclusiveFlags ∧ "ebook" ∈ mutuallyExclusiveFlags ∧
    ∃ e, execute { Flags.default with screen := true, ebook := true } ["screen", "ebook"]
      ["doc.pdf"] { statInput := Except.ok 1, optimizeErr := none, statOutput := Except.ok 1 }
      = Except.error e :=
  ⟨by decide, by decide,
    C8_conflicting_profile_flags _ ["screen", "ebook"] _ _ "screen" "ebook" (by decide)
      (by decide) (by decide) (by decide) (by decide)⟩

/-! ## The calls on the engine -/

theorem engineCalls_append (a b : List Event) :
    engineCalls (a ++ b) = engineCalls a ++ engineCalls b := by
  simp [engineCalls, List.filterMap_append]

theorem engineCalls_map_call (l : List Call) : engineCalls (l.map Event.call) = l := by
  induction l with
  | nil => rfl
  | cons c l ih =>
    simp only [engineCalls, List.map_cons, List.filterMap_cons] at ih ⊢
    rw [ih]

theorem engineCalls_reportEvents (output : String) (oldSize : Int) (w : World) :
    engineCalls (reportEvents output oldSize w) = [] := by
  unfold reportEvents
  repeat' split
  all_goals rfl

theorem engineCalls_optimizeAndReport (g : Flags) (style : Style) (output : String)
    (oldSize : Option Int) (w : World) :
    engineCalls (optimizeAndReport g style output oldSize w) =
      profileCalls g style ++ dpiCalls g ++ [optimizeCall g output] := by
  unfold optimizeAndReport
  cases w.optimizeErr with
  | some err =>
    simp only [engineCalls_append, engineCalls_map_call]
    simp [engineCalls]
  | none =>
    cases oldSize with
    | none => simp only [engineCalls_map_call]
    | some old =>
      simp only [engineCalls_append, engineCalls_map_call, engineCalls_reportEvents,
        List.append_nil]

/-- Under the validated flag combinations the `switch` of lines 140-149 issues exactly the
operation of the resolved profile. -/
theorem profileCalls_resolveStyle (g : Flags) (hone : profileFlagCount g ≤ 1)
    (hvalid : g.style = "" ∨ g.style ∈ styleNames) :
    ∃ op, profileOp (resolveStyle g) = some op ∧ profileCalls g (resolveStyle g) = [op] := by
  obtain ⟨inplace, silent, style, screen, ebook, printFlag, prepress, dpi⟩ := g
  simp only [styleNames, List.mem_cons, List.mem_singleton, List.not_mem_nil, or_false] at hvalid
  rcases hvalid with h | h | h | h | h <;>
    cases screen <;> cases ebook <;> cases printFlag <;> cases prepress <;>
    simp_all [profileFlagCount, resolveStyle, profileOp, profileCalls, StyleScreen, StyleEbook,
      StylePrint, StylePrepress]

/-- What `rootCmd.Args` has established when it returns `nil`. -/
theorem rootCmdArgs_none (g : Flags) (args : List String) (h : rootCmdArgs g args = none) :
    (args.length = 1 ∨ args.length = 2) ∧ (g.inplace = true → args.length = 1) ∧
    (g.style = "" ∨ g.style ∈ styleNames) := by
  unfold rootCmdArgs at h
  split_ifs at h with h1 h2 h3
  refine ⟨by omega, fun hin => ?_, ?_⟩
  · by_contra hlen
    exact h2 ⟨hin, by omega⟩
  · by_contra hs
    simp only [styleNames, List.mem_cons, List.mem_singleton, List.not_mem_nil, or_false,
      not_or] at hs
    exact h3 ⟨hs.1, hs.2.1, hs.2.2.1, hs.2.2.2.1, hs.2.2.2.2⟩

/-- C9: in a validated invocation (arguments accepted by `rootCmd.Args`, at most one profile
flag set) whose steps before the engine succeed (silent mode, or `os.Stat(input)` succeeds),
the method calls on the engine handle are, in order: the one profile operation of the
resolved profile, then `ImageDPI(dpi)` exactly when `dpi > 0`, then `OptimizeInplace()` if
`--inplace` is set and `Optimize(output)` with the resolved output path otherwise. The same
resolved profile appears in the announcement and in a generated file name. -/
theorem C9_engine_directive (g : Flags) (args : List String) (w : World)
    (hargs : rootCmdArgs g args = none) (hone : profileFlagCount g ≤ 1)
    (hpre : g.silent = true ∨ ∃ size, w.statInput = Except.ok size) :
    ∃ input output op,
      args.head? = some input ∧
      resolveOutput g args (resolveStyle g) = some output ∧
      profileOp (resolveStyle g) = some op ∧
      engineCalls (mainHandler g args w) =
        [op] ++ (if g.dpi > 0 then [Call.ImageDPI g.dpi] else []) ++
          [if g.inplace = true then Call.OptimizeInplace else Call.Optimize output] ∧
      (g.silent = false →
        Event.stdout ("Optimizing " ++ input ++ " to " ++ output ++ " for " ++ resolveStyle g
          ++ "...\n") ∈ mainHandler g args w) ∧
      (args.length = 1 → g.inplace = false →
        output = TrimSuffix input ".pdf" ++ "." ++ resolveStyle g ++ ".pdf") := by
  obtain ⟨hlen, -, hvalid⟩ := rootCmdArgs_none g args hargs
  obtain ⟨op, hop, hcalls⟩ := profileCalls_resolveStyle g hone hvalid
  match args, hlen with
  | [], hlen => simp at hlen
  | input :: rest, hlen =>
    have hout : ∃ output, resolveOutput g (input :: rest) (resolveStyle g) = some output := by
      unfold resolveOutput
      cases rest with
      | nil => by_cases hin : g.inplace = true <;> simp [hin]
      | cons out tl => exact ⟨out, rfl⟩
    obtain ⟨output, hout⟩ := hout
    refine ⟨input, output, op, rfl, hout, hop, ?_, ?_, ?_⟩
    · have hoa : ∀ oldSize, engineCalls (optimizeAndReport g (resolveStyle g) output oldSize w) =
          [op] ++ (if g.dpi > 0 then [Call.ImageDPI g.dpi] else []) ++
            [if g.inplace = true then Call.OptimizeInplace else Call.Optimize output] := by
        intro oldSize
        rw [engineCalls_optimizeAndReport, hcalls]
        rfl
      unfold mainHandler
      simp only [hout]
      rcases hpre with hs | ⟨size, hs⟩
      · rw [if_pos hs]
        rw [← hoa none]
        rfl
      · by_cases hsil : g.silent = true
        · rw [if_pos hsil, ← hoa none]
          rfl
        · rw [if_neg hsil]
          simp only [hs]
          rw [engineCalls_append, hoa]
          rfl
    · intro hsil
      unfold mainHandler
      simp only [hout, hsil]
      cases w.statInput <;> simp
    · intro hl hin
      have hrest : rest = [] := by
        cases rest with
        | nil => rfl
        | cons _ _ => simp at hl
      subst hrest
      simp only [resolveOutput, hin, Bool.false_eq_true, if_false, Option.some.injEq] at hout
      exact hout.symm

/-- C9 at `--prepress --dpi 150 doc.pdf` with a readable input file: the hypotheses hold and
the engine receives `ForPrepress`, `ImageDPI(150)`, `Optimize("doc.prepress.pdf")`. -/
theorem C9_engine_directive_witness :
    rootCmdArgs { Flags.default with prepress := true, dpi := 150 } ["doc.pdf"] = none ∧
    profileFlagCount { Flags.default with prepress := true, dpi := 150 } ≤ 1 ∧
    ∃ input output op,
      ["doc.pdf"].head? = some input ∧
      resolveOutput { Flags.default with prepress := true, dpi := 150 } ["doc.pdf"]
        (resolveStyle { Flags.default with prepress := true, dpi := 150 }) = some output ∧
      profileOp (resolveStyle { Flags.default with prepress := true, dpi := 150 }) = some op ∧
      engineCalls (mainHandler { Flags.default with prepress := true, dpi := 150 } ["doc.pdf"]
        { statInput := Except.ok 2000, optimizeErr := none, statOutput := Except.ok 1000 }) =
        [op] ++ (if (150 : Int) > 0 then [Call.ImageDPI 150] else []) ++
          [if false = true then Call.OptimizeInplace else Call.Optimize output] :=
  ⟨by decide, by decide,
    let ⟨input, output, op, h1, h2, h3, h4, _, _⟩ :=
      C9_engine_directive { Flags.default with prepress := true, dpi := 150 } ["doc.pdf"]
        { statInput := Except.ok 2000, optimizeErr := none, statOutput := Except.ok 1000 }
        (by decide) (by decide) (Or.inr ⟨2000, rfl⟩)
    ⟨input, output, op, h1, h2, h3, h4⟩⟩

/-! ## The output path -/

theorem String_length_eq (s : String) : s.length = s.data.length := rfl

theorem HasSuffix_append (stem suffix : String) : HasSuffix (stem ++ suffix) suffix = true := by
  unfold HasSuffix
  rw [String.length_append, String.data_append, Nat.add_sub_cancel, String_length_eq stem,
    List.drop_left]
  simp

theorem TrimSuffix_append (stem suffix : String) : TrimSuffix (stem ++ suffix) suffix = stem := by
  unfold TrimSuffix
  rw [if_pos (HasSuffix_append stem suffix)]
  rw [String.length_append, String.data_append, Nat.add_sub_cancel, String_length_eq stem,
    List.take_left]

theorem TrimSuffix_of_not_suffix (s suffix : String) (h : ¬ ∃ stem, s = stem ++ suffix) :
    TrimSuffix s suffix = s := by
  unfold TrimSuffix
  split_ifs with hs
  · exfalso
    apply h
    refine ⟨String.mk (s.data.take (s.length - suffix.length)), ?_⟩
    simp only [HasSuffix, Bool.and_eq_true, decide_eq_true_eq] at hs
    apply String.ext
    rw [String.data_append, ← hs.2]
    exact (List.take_append_drop _ _).symm
  · rfl

theorem TrimSuffix_length (s suffix : String) :
    s.length ≤ (TrimSuffix s suffix).length + suffix.length := by
  unfold TrimSuffix
  split_ifs with hs
  · simp only [HasSuffix, Bool.and_eq_true, decide_eq_true_eq] at hs
    have ht : (String.mk (s.data.take (s.length - suffix.length))).length
        = min (s.length - suffix.length) s.length := by
      rw [String_length_eq (String.mk _), List.length_take, ← String_length_eq]
    rw [ht]
    omega
  · omega

/-- C2: the output path computed by lines 114-120 is the explicit output argument when there
is one; otherwise the input path when `--inplace` is set; otherwise the input path without
one trailing `.pdf` (untouched if it does not end in exactly `.pdf`), followed by
`.<profile>.pdf`. The four examples of the specification evaluate as stated. -/
theorem C2_output_path (g : Flags) (input : String) (style : Style) :
    (∀ out : String, resolveOutput g [input, out] style = some out) ∧
    (g.inplace = true → resolveOutput g [input] style = some input) ∧
    (g.inplace = false → ∀ stem : String, input = stem ++ ".pdf" →
      resolveOutput g [input] style = some (stem ++ "." ++ style ++ ".pdf")) ∧
    (g.inplace = false → (¬ ∃ stem : String, input = stem ++ ".pdf") →
      resolveOutput g [input] style = some (input ++ "." ++ style ++ ".pdf")) ∧
    resolveOutput { Flags.default with inplace := false } ["doc.pdf"] StyleEbook
      = some "doc.ebook.pdf" ∧
    resolveOutput { Flags.default with inplace := false } ["doc"] StyleScreen
      = some "doc.screen.pdf" ∧
    resolveOutput { Flags.default with inplace := false } ["doc.pdf", "out.pdf"] StylePrint
      = some "out.pdf" ∧
    resolveOutput { Flags.default with inplace := true } ["doc.pdf"] StylePrepress
      = some "doc.pdf" ∧
    resolveOutput { Flags.default with inplace := false } ["doc.PDF"] StyleScreen
      = some "doc.PDF.screen.pdf" := by
  refine ⟨fun out => rfl, ?_, ?_, ?_, by decide, by decide, by decide, by decide, by decide⟩
  · intro hin
    simp [resolveOutput, hin]
  · intro hin stem hstem
    subst hstem
    simp [resolveOutput, hin, TrimSuffix_append]
  · intro hin hno
    simp [resolveOutput, hin, TrimSuffix_of_not_suffix input ".pdf" hno]

/-- C10: with no explicit output argument and without `--inplace`, the generated output path
for each of the four profiles is strictly longer than the input path, hence different from
it, and ends in `.pdf`. -/
theorem C10_generated_output_differs (g : Flags) (input : String) (style : Style)
    (hin : g.inplace = false) (hstyle : style ∈ styleNames) :
    ∃ output, resolveOutput g [input] style = some output ∧
      input.length < output.length ∧ output ≠ input ∧ HasSuffix output ".pdf" = true := by
  refine ⟨TrimSuffix input ".pdf" ++ "." ++ style ++ ".pdf", ?_, ?_, ?_, ?_⟩
  · simp [resolveOutput, hin]
  · have hlen := TrimSuffix_length input ".pdf"
    have h5 : 5 ≤ style.length := by
      simp only [styleNames, List.mem_cons, List.mem_singleton, List.not_mem_nil, or_false]
        at hstyle
      rcases hstyle with h | h | h | h <;> subst h <;> decide
    have h4 : (".pdf" : String).length = 4 := by decide
    have h1 : ("." : String).length = 1 := by decide
    simp only [String.length_append, h4, h1] at hlen ⊢
    omega
  · have hlen := TrimSuffix_length input ".pdf"
    have h5 : 5 ≤ style.length := by
      simp only [styleNames, List.mem_cons, List.mem_singleton, List.not_mem_nil, or_false]
        at hstyle
      rcases hstyle with h | h | h | h <;> subst h <;> decide
    have h4 : (".pdf" : String).length = 4 := by decide
    have h1 : ("." : String).length = 1 := by decide
    intro heq
    have := congrArg String.length heq
    simp only [String.length_append, h4, h1] at hlen this
    omega
  · exact HasSuffix_append _ _

/-- C10 at the input `doc.pdf` with the profile `print`: the hypotheses hold and the generated
path is longer than the input and ends in `.pdf`. -/
theorem C10_generated_output_differs_witness :
    Flags.default.inplace = false ∧ StylePrint ∈ styleNames ∧
    ∃ output, resolveOutput Flags.default ["doc.pdf"] StylePrint = some output ∧
      ("doc.pdf" : String).length < output.length ∧ output ≠ "doc.pdf" ∧
      HasSuffix output ".pdf" = true :=
  ⟨rfl, by decide, C10_generated_output_differs Flags.default "doc.pdf" StylePrint rfl
    (by decide)⟩

/-! ## Rounding to `float64` -/

theorem roundHalfEven_cases (x : ℚ) :
    roundHalfEven x = ⌊x⌋ ∨ roundHalfEven x = ⌊x⌋ + 1 := by
  unfold roundHalfEven
  simp only
  split_ifs <;> simp

theorem roundHalfEven_intCast (n : ℤ) : roundHalfEven (n : ℚ) = n := by
  unfold roundHalfEven
  simp

theorem roundHalfEven_sub_le (x : ℚ) : |(roundHalfEven x : ℚ) - x| ≤ 1 / 2 := by
  have h1 : (⌊x⌋ : ℚ) ≤ x := Int.floor_le x
  have h2 : x < ⌊x⌋ + 1 := Int.lt_floor_add_one x
  unfold roundHalfEven
  simp only
  rw [abs_le]
  split_ifs with ha hb hc
  · constructor <;> linarith
  · push_cast
    constructor <;> linarith
  · have : x - ⌊x⌋ = 1 / 2 := le_antisymm (not_lt.mp hb) (not_lt.mp ha)
    constructor <;> linarith
  · have : x - ⌊x⌋ = 1 / 2 := le_antisymm (not_lt.mp hb) (not_lt.mp ha)
    push_cast
    constructor <;> linarith

theorem le_roundHalfEven (n : ℤ) (x : ℚ) (h : (n : ℚ) ≤ x) : n ≤ roundHalfEven x := by
  have hf : n ≤ ⌊x⌋ := Int.le_floor.mpr h
  rcases roundHalfEven_cases x with hc | hc <;> rw [hc] <;> omega

theorem roundHalfEven_le (n : ℤ) (x : ℚ) (h : x ≤ (n : ℚ)) : roundHalfEven x ≤ n := by
  rcases eq_or_lt_of_le h with heq | hlt
  · rw [heq, roundHalfEven_intCast]
  · have hf : ⌊x⌋ < n := Int.floor_lt.mpr hlt
    rcases roundHalfEven_cases x with hc | hc <;> rw [hc] <;> omega

/-- The arithmetic of rounding to 53 significant bits: for `2^e ≤ |x| < 2^(e+1)` the value
`x` rounded to a multiple of `2^(e-52)` is within half that spacing of `x`, has the sign of
`x`, is at most `2^(e+1)` in magnitude, and has a significand below `2^53`. -/
theorem round53_spec (x : ℚ) (e : ℤ) (he1 : (2 : ℚ) ^ e ≤ |x|) (he2 : |x| < (2 : ℚ) ^ (e + 1)) :
    |(roundHalfEven (x / 2 ^ (e - 52)) : ℚ) * 2 ^ (e - 52) - x| ≤ |x| / 2 ^ 53 ∧
    (0 < x → 0 < (roundHalfEven (x / 2 ^ (e - 52)) : ℚ) * 2 ^ (e - 52)) ∧
    (x < 0 → (roundHalfEven (x / 2 ^ (e - 52)) : ℚ) * 2 ^ (e - 52) < 0) ∧
    |(roundHalfEven (x / 2 ^ (e - 52)) : ℚ) * 2 ^ (e - 52)| ≤ 2 ^ (e + 1) ∧
    ∃ m j : ℤ, |m| < 2 ^ 53 ∧
      (roundHalfEven (x / 2 ^ (e - 52)) : ℚ) * 2 ^ (e - 52) = (m : ℚ) * (2 : ℚ) ^ j := by
  have h2 : (0 : ℚ) < 2 := by norm_num
  have h2' : (2 : ℚ) ≠ 0 := by norm_num
  have hulp : (0 : ℚ) < 2 ^ (e - 52) := zpow_pos h2 _
  have hP : (2 : ℚ) ^ e = 4503599627370496 * 2 ^ (e - 52) := by
    have : e = 52 + (e - 52) := by ring
    conv_lhs => rw [this, zpow_add₀ h2']
    norm_num
  have hP1 : (2 : ℚ) ^ (e + 1) = 9007199254740992 * 2 ^ (e - 52) := by
    rw [zpow_add₀ h2', hP]
    ring
  have hP2 : (2 : ℚ) ^ (e - 51) = 2 * 2 ^ (e - 52) := by
    have : e - 51 = 1 + (e - 52) := by ring
    rw [this, zpow_add₀ h2']
    norm_num
  generalize hu : (2 : ℚ) ^ (e - 52) = ulp at *
  have hxy : x / ulp * ulp = x := div_mul_cancel₀ x (ne_of_gt hulp)
  generalize hy : x / ulp = y at *
  have hm := roundHalfEven_sub_le y
  have hbounds : (0 < x → (4503599627370496 : ℤ) ≤ roundHalfEven y ∧
        roundHalfEven y ≤ (9007199254740992 : ℤ)) ∧
      (x < 0 → (-9007199254740992 : ℤ) ≤ roundHalfEven y ∧
        roundHalfEven y ≤ (-4503599627370496 : ℤ)) := by
    constructor
    · intro hx
      rw [abs_of_pos hx] at he1 he2
      constructor
      · apply le_roundHalfEven
        push_cast
        by_contra hc
        push_neg at hc
        have := mul_lt_mul_of_pos_right hc hulp
        linarith
      · apply roundHalfEven_le
        push_cast
        by_contra hc
        push_neg at hc
        have := mul_lt_mul_of_pos_right hc hulp
        linarith
    · intro hx
      rw [abs_of_neg hx] at he1 he2
      constructor
      · apply le_roundHalfEven
        push_cast
        by_contra hc
        push_neg at hc
        have := mul_lt_mul_of_pos_right hc hulp
        linarith
      · apply roundHalfEven_le
        push_cast
        by_contra hc
        push_neg at hc
        have := mul_lt_mul_of_pos_right hc hulp
        linarith
  have hx0 : x ≠ 0 := by
    intro h0
    rw [h0, abs_zero, hP] at he1
    linarith
  generalize hmm : roundHalfEven y = m at *
  have hmabs : |m| ≤ 9007199254740992 := by
    rcases lt_or_gt_of_ne hx0 with hx | hx
    · have := hbounds.2 hx
      rw [abs_le]; omega
    · have := hbounds.1 hx
      rw [abs_le]; omega
  refine ⟨?_, ?_, ?_, ?_, ?_⟩
  · have h1 : (m : ℚ) * ulp - x = ((m : ℚ) - y) * ulp := by rw [sub_mul, hxy]
    rw [h1, abs_mul, abs_of_pos hulp]
    have h3 : |(m : ℚ) - y| * ulp ≤ 1 / 2 * ulp := mul_le_mul_of_nonneg_right hm hulp.le
    have h4 : 1 / 2 * ulp ≤ |x| / 2 ^ 53 := by
      rw [le_div_iff₀ (by norm_num)]
      linarith
    linarith
  · intro hx
    have := (hbounds.1 hx).1
    have hm0 : (0 : ℚ) < m := by exact_mod_cast (by omega : (0 : ℤ) < m)
    exact mul_pos hm0 hulp
  · intro hx
    have := (hbounds.2 hx).2
    have hm0 : (m : ℚ) < 0 := by exact_mod_cast (by omega : m < (0 : ℤ))
    exact mul_neg_of_neg_of_pos hm0 hulp
  · rw [abs_mul, abs_of_pos hulp, hP1]
    apply mul_le_mul_of_nonneg_right _ hulp.le
    have : ((|m| : ℤ) : ℚ) ≤ ((9007199254740992 : ℤ) : ℚ) := by exact_mod_cast hmabs
    simpa using this
  · by_cases hlt : |m| < 2 ^ 53
    · exact ⟨m, e - 52, hlt, by rw [hu]⟩
    · have hmeq : |m| = 9007199254740992 := by
        norm_num at hlt
        omega
      rcases abs_eq (by norm_num : (0 : ℤ) ≤ 9007199254740992) |>.mp hmeq with hm1 | hm1
      · refine ⟨4503599627370496, e - 51, by norm_num, ?_⟩
        rw [hm1, hP2]
        push_cast
        ring
      · refine ⟨-4503599627370496, e - 51, by norm_num, ?_⟩
        rw [hm1, hP2]
        push_cast
        ring

/-- Rounding in the normal range of binary64: the result is finite, within half a unit in the
last place of the exact value, has its sign, and has a significand below `2^53`. -/
theorem F64.round_normal (x : ℚ) (hlo : (2 : ℚ) ^ (-1022 : ℤ) ≤ |x|)
    (hhi : |x| < (2 : ℚ) ^ (1023 : ℤ)) :
    ∃ r : ℚ, F64.round x = F64.fin r ∧ |r - x| ≤ |x| / 2 ^ 53 ∧ (0 < x → 0 < r) ∧
      (x < 0 → r < 0) ∧ ∃ m j : ℤ, |m| < 2 ^ 53 ∧ r = (m : ℚ) * (2 : ℚ) ^ j := by
  have h2 : (0 : ℚ) < 2 := by norm_num
  have hpos : 0 < |x| := lt_of_lt_of_le (zpow_pos h2 _) hlo
  have hx0 : x ≠ 0 := abs_pos.mp hpos
  have he1 : (2 : ℚ) ^ Int.log 2 |x| ≤ |x| := by
    simpa using Int.zpow_log_le_self (b := 2) (by norm_num) hpos
  have he2 : |x| < (2 : ℚ) ^ (Int.log 2 |x| + 1) := by
    simpa using Int.lt_zpow_succ_log_self (b := 2) (by norm_num) |x|
  have hge : (-1022 : ℤ) ≤ Int.log 2 |x| :=
    (Int.zpow_le_iff_le_log (b := 2) (by norm_num) hpos).mp (by simpa using hlo)
  have hlt : Int.log 2 |x| < 1023 :=
    (Int.lt_zpow_iff_log_lt (b := 2) (by norm_num) hpos).mp (by simpa using hhi)
  obtain ⟨hr1, hr2, hr3, hr4, hr5⟩ := round53_spec x (Int.log 2 |x|) he1 he2
  have hfin : ¬ (2 : ℚ) ^ (1024 : ℕ) ≤
      |(roundHalfEven (x / 2 ^ (Int.log 2 |x| - 52)) : ℚ) * 2 ^ (Int.log 2 |x| - 52)| := by
    intro hc
    have h3 : (2 : ℚ) ^ (Int.log 2 |x| + 1) ≤ (2 : ℚ) ^ (1023 : ℤ) :=
      zpow_le_zpow_right₀ (by norm_num) (by omega)
    have h4 : (2 : ℚ) ^ (1023 : ℤ) < (2 : ℚ) ^ (1024 : ℕ) := by
      rw [← zpow_natCast]
      exact zpow_lt_zpow_right₀ (by norm_num) (by norm_num)
    linarith
  refine ⟨_, ?_, hr1, hr2, hr3, hr5⟩
  unfold F64.round
  rw [if_neg hx0]
  simp only [max_eq_left hge]
  rw [if_neg hfin]

/-- At a tie `roundHalfEven` returns the even neighbour. -/
theorem roundHalfEven_tie_even (x : ℚ) (h : |(roundHalfEven x : ℚ) - x| = 1 / 2) :
    roundHalfEven x % 2 = 0 := by
  have h1 : (⌊x⌋ : ℚ) ≤ x := Int.floor_le x
  have h2 : x < ⌊x⌋ + 1 := Int.lt_floor_add_one x
  unfold roundHalfEven at h ⊢
  simp only at h ⊢
  split_ifs at h ⊢ with ha hb hc
  · exfalso
    rw [abs_of_nonpos (by linarith)] at h
    linarith
  · exfalso
    push_cast at h
    rw [abs_of_nonneg (by linarith)] at h
    linarith
  · exact hc
  · omega

/-- The value of `roundHalfEven` is determined by: nearest integer, and even at a tie. -/
theorem roundHalfEven_unique (x : ℚ) (m : ℤ) (h1 : |(m : ℚ) - x| ≤ 1 / 2)
    (h2 : |(m : ℚ) - x| = 1 / 2 → m % 2 = 0) : roundHalfEven x = m := by
  have hn := roundHalfEven_sub_le x
  have ht := roundHalfEven_tie_even x
  generalize roundHalfEven x = n at hn ht
  have hnm : |(n : ℚ) - m| ≤ 1 := by
    have : (n : ℚ) - m = (n - x) - (m - x) := by ring
    rw [this]
    exact le_trans (abs_sub _ _) (by linarith)
  have hnm' : |n - m| ≤ 1 := by
    have : ((|n - m| : ℤ) : ℚ) ≤ ((1 : ℤ) : ℚ) := by
      push_cast
      exact hnm
    exact_mod_cast this
  rw [abs_le] at hnm'
  rcases hnm' with ⟨hlo, hhi⟩
  have hcases : n = m ∨ n = m + 1 ∨ n = m - 1 := by omega
  rw [abs_le] at h1 hn
  rcases hcases with h | h | h
  · exact h
  · exfalso
    have hx : x = m + 1 / 2 := by
      have : (n : ℚ) = m + 1 := by rw [h]; push_cast; ring
      linarith [h1.1, h1.2, hn.1, hn.2]
    have e1 : |(n : ℚ) - x| = 1 / 2 := by
      rw [h, hx]
      push_cast
      norm_num
    have e2 : |(m : ℚ) - x| = 1 / 2 := by
      rw [hx]
      norm_num
    have := ht e1
    have := h2 e2
    omega
  · exfalso
    have hx : x = m - 1 / 2 := by
      have : (n : ℚ) = m - 1 := by rw [h]; push_cast; ring
      linarith [h1.1, h1.2, hn.1, hn.2]
    have e1 : |(n : ℚ) - x| = 1 / 2 := by
      rw [h, hx]
      push_cast
      norm_num
    have e2 : |(m : ℚ) - x| = 1 / 2 := by
      rw [hx]
      norm_num
    have := ht e1
    have := h2 e2
    omega

/-- Rounding of a given value in the normal range, from its exponent `e` and the integer `m`
nearest to it in units of `2^(e-52)`. -/
theorem F64.round_eval (x : ℚ) (e m : ℤ) (he1 : (2 : ℚ) ^ e ≤ |x|)
    (he2 : |x| < (2 : ℚ) ^ (e + 1)) (hlo : -1022 ≤ e) (hhi : e < 1023)
    (h1 : |(m : ℚ) - x / 2 ^ (e - 52)| ≤ 1 / 2)
    (h2 : |(m : ℚ) - x / 2 ^ (e - 52)| = 1 / 2 → m % 2 = 0) :
    F64.round x = F64.fin ((m : ℚ) * 2 ^ (e - 52)) := by
  have h2pos : (0 : ℚ) < 2 := by norm_num
  have hpos : 0 < |x| := lt_of_lt_of_le (zpow_pos h2pos _) he1
  have hx0 : x ≠ 0 := abs_pos.mp hpos
  have hlog : Int.log 2 |x| = e := by
    have ha : e ≤ Int.log 2 |x| :=
      (Int.zpow_le_iff_le_log (b := 2) (by norm_num) hpos).mp (by simpa using he1)
    have hb : Int.log 2 |x| < e + 1 :=
      (Int.lt_zpow_iff_log_lt (b := 2) (by norm_num) hpos).mp (by simpa using he2)
    omega
  have hm := roundHalfEven_unique (x / 2 ^ (e - 52)) m h1 h2
  obtain ⟨-, -, -, hr4, -⟩ := round53_spec x e he1 he2
  rw [hm] at hr4
  have hfin : ¬ (2 : ℚ) ^ (1024 : ℕ) ≤ |(m : ℚ) * 2 ^ (e - 52)| := by
    intro hc
    have h3 : (2 : ℚ) ^ (e + 1) ≤ (2 : ℚ) ^ (1023 : ℤ) :=
      zpow_le_zpow_right₀ (by norm_num) (by omega)
    have h4 : (2 : ℚ) ^ (1023 : ℤ) < (2 : ℚ) ^ (1024 : ℕ) := by
      rw [← zpow_natCast]
      exact zpow_lt_zpow_right₀ (by norm_num) (by norm_num)
    linarith
  unfold F64.round
  rw [if_neg hx0]
  simp only [hlog, max_eq_left hlo, hm]
  rw [if_neg hfin]

/-- A multiple of the spacing `2^(e-52)` is its own rounding to that spacing. -/
theorem round53_exact (m j e : ℤ) (hej : e ≤ j + 52) :
    (roundHalfEven ((m : ℚ) * 2 ^ j / 2 ^ (e - 52)) : ℚ) * 2 ^ (e - 52) = (m : ℚ) * 2 ^ j := by
  have h2' : (2 : ℚ) ≠ 0 := by norm_num
  obtain ⟨k, hk⟩ : ∃ k : ℕ, j = (k : ℤ) + (e - 52) := ⟨(j - (e - 52)).toNat, by omega⟩
  have hy : (m : ℚ) * 2 ^ j / 2 ^ (e - 52) = ((m * 2 ^ k : ℤ) : ℚ) := by
    rw [hk, zpow_add₀ h2', zpow_natCast]
    push_cast
    field_simp
    ring
  rw [hy, roundHalfEven_intCast, hk, zpow_add₀ h2', zpow_natCast]
  push_cast
  ring

/-- A value with a significand below `2^53`, in the normal range or zero, is not changed by
rounding. -/
theorem F64.round_exact (m j : ℤ) (hm : |m| < 2 ^ 53)
    (hlo : m ≠ 0 → (2 : ℚ) ^ (-1022 : ℤ) ≤ |(m : ℚ) * 2 ^ j|)
    (hhi : |(m : ℚ) * 2 ^ j| < (2 : ℚ) ^ (1023 : ℤ)) :
    F64.round ((m : ℚ) * 2 ^ j) = F64.fin ((m : ℚ) * 2 ^ j) := by
  have h2 : (0 : ℚ) < 2 := by norm_num
  have h2' : (2 : ℚ) ≠ 0 := by norm_num
  by_cases hm0 : m = 0
  · subst hm0
    simp [F64.round]
  have hlo := hlo hm0
  have hpos : 0 < |(m : ℚ) * 2 ^ j| := lt_of_lt_of_le (zpow_pos h2 _) hlo
  have hx0 : (m : ℚ) * 2 ^ j ≠ 0 := abs_pos.mp hpos
  have hge : (-1022 : ℤ) ≤ Int.log 2 |(m : ℚ) * 2 ^ j| :=
    (Int.zpow_le_iff_le_log (b := 2) (by norm_num) hpos).mp (by simpa using hlo)
  have hej : Int.log 2 |(m : ℚ) * 2 ^ j| < j + 53 := by
    apply (Int.lt_zpow_iff_log_lt (b := 2) (by norm_num) hpos).mp
    have h3 : |(m : ℚ)| < 2 ^ 53 := by
      have : ((|m| : ℤ) : ℚ) < ((2 ^ 53 : ℤ) : ℚ) := by exact_mod_cast hm
      simpa using this
    have h4 : (2 : ℚ) ^ (j + 53) = 2 ^ 53 * 2 ^ j := by
      rw [zpow_add₀ h2']
      norm_num
      ring
    push_cast
    rw [abs_mul, abs_of_pos (zpow_pos h2 j), h4]
    exact mul_lt_mul_of_pos_right h3 (zpow_pos h2 j)
  unfold F64.round
  rw [if_neg hx0]
  simp only [max_eq_left hge]
  rw [round53_exact m j _ (by omega)]
  rw [if_neg]
  intro hc
  have h4 : (2 : ℚ) ^ (1023 : ℤ) < (2 : ℚ) ^ (1024 : ℕ) := by
    rw [← zpow_natCast]
    exact zpow_lt_zpow_right₀ (by norm_num) (by norm_num)
  linarith

theorem wrap64_of_int64 (x : ℤ) (hlo : -2 ^ 63 ≤ x) (hhi : x < 2 ^ 63) : wrap64 x = x := by
  unfold wrap64
  norm_num at hlo hhi ⊢
  omega

theorem F64.ofInt_zero : F64.ofInt 0 = F64.fin 0 := by
  simp [F64.ofInt, F64.round]

/-- Integers below `2^53` in magnitude convert to `float64` without rounding. -/
theorem F64.ofInt_exact (i : ℤ) (h : |i| < 2 ^ 53) : F64.ofInt i = F64.fin i := by
  have h2 : (0 : ℚ) < 2 := by norm_num
  have hi : |(i : ℚ)| < 2 ^ 53 := by
    have : ((|i| : ℤ) : ℚ) < ((2 ^ 53 : ℤ) : ℚ) := by exact_mod_cast h
    simpa using this
  have := F64.round_exact i 0 h
    (by
      intro h0
      have h1 : (1 : ℚ) ≤ |(i : ℚ)| := by
        have : (1 : ℤ) ≤ |i| := Int.one_le_abs h0
        have : ((1 : ℤ) : ℚ) ≤ ((|i| : ℤ) : ℚ) := by exact_mod_cast this
        simpa using this
      have h3 : (2 : ℚ) ^ (-1022 : ℤ) ≤ 1 := zpow_le_one_of_nonpos₀ (by norm_num) (by norm_num)
      simpa using le_trans h3 h1)
    (by
      have h3 : (2 : ℚ) ^ (53 : ℕ) < (2 : ℚ) ^ (1023 : ℤ) := by
        rw [← zpow_natCast]
        exact zpow_lt_zpow_right₀ (by norm_num) (by norm_num)
      simpa using lt_trans hi h3)
  simpa [F64.ofInt] using this

/-- Conversion of a non-zero `int64` to `float64`: finite, of the same sign, with relative
error at most `2^-53`, and with a significand below `2^53`. -/
theorem F64.ofInt_int64 (i : ℤ) (h0 : i ≠ 0) (h : |i| ≤ 2 ^ 63) :
    ∃ r : ℚ, F64.ofInt i = F64.fin r ∧ |r - i| ≤ |(i : ℚ)| / 2 ^ 53 ∧ (0 < i → 0 < r) ∧
      (i < 0 → r < 0) ∧ ∃ m j : ℤ, |m| < 2 ^ 53 ∧ r = (m : ℚ) * (2 : ℚ) ^ j := by
  have h1 : (1 : ℚ) ≤ |(i : ℚ)| := by
    have : (1 : ℤ) ≤ |i| := Int.one_le_abs h0
    have : ((1 : ℤ) : ℚ) ≤ ((|i| : ℤ) : ℚ) := by exact_mod_cast this
    simpa using this
  have hi : |(i : ℚ)| ≤ 2 ^ 63 := by
    have : ((|i| : ℤ) : ℚ) ≤ ((2 ^ 63 : ℤ) : ℚ) := by exact_mod_cast h
    simpa using this
  have h3 : (2 : ℚ) ^ (-1022 : ℤ) ≤ 1 := zpow_le_one_of_nonpos₀ (by norm_num) (by norm_num)
  have h4 : (2 : ℚ) ^ (63 : ℕ) < (2 : ℚ) ^ (1023 : ℤ) := by
    rw [← zpow_natCast]
    exact zpow_lt_zpow_right₀ (by norm_num) (by norm_num)
  obtain ⟨r, hr, hr1, hr2, hr3, hr4⟩ :=
    F64.round_normal (i : ℚ) (le_trans h3 h1) (lt_of_le_of_lt hi h4)
  exact ⟨r, hr, hr1, fun hp => hr2 (by exact_mod_cast hp), fun hn => hr3 (by exact_mod_cast hn),
    hr4⟩

/-- A relative error of at most `2^-53` written as a factor `1 + δ`. -/
theorem exists_factor_of_relErr (r x : ℚ) (h : |r - x| ≤ |x| / 2 ^ 53) :
    ∃ δ : ℚ, |δ| ≤ 1 / 2 ^ 53 ∧ r = x * (1 + δ) := by
  by_cases hx : x = 0
  · subst hx
    have hr : r = 0 := by
      have : |r| ≤ 0 := by simpa using h
      exact abs_eq_zero.mp (le_antisymm this (abs_nonneg r))
    exact ⟨0, by norm_num, by rw [hr]; ring⟩
  · refine ⟨(r - x) / x, ?_, by field_simp⟩
    have hpos : 0 < |x| := abs_pos.mpr hx
    rw [abs_div, div_le_iff₀ hpos]
    calc |r - x| ≤ |x| / 2 ^ 53 := h
      _ = 1 / 2 ^ 53 * |x| := by ring

/-- Four roundings, one of them in a divisor, change a value by a factor within `2^-50` of 1. -/
theorem factor_bound (d1 d2 d3 d4 : ℚ) (h1 : |d1| ≤ 1 / 2 ^ 53) (h2 : |d2| ≤ 1 / 2 ^ 53)
    (h3 : |d3| ≤ 1 / 2 ^ 53) (h4 : |d4| ≤ 1 / 2 ^ 53) :
    |(1 + d1) * (1 + d3) * (1 + d4) / (1 + d2) - 1| ≤ 1 / 2 ^ 50 := by
  rw [abs_le] at h1 h2 h3 h4
  norm_num at h1 h2 h3 h4
  have hD : (0 : ℚ) < 1 + d2 := by linarith
  have a1 : 9007199254740991 / 9007199254740992 ≤ 1 + d1 := by linarith
  have a3 : 9007199254740991 / 9007199254740992 ≤ 1 + d3 := by linarith
  have a4 : 9007199254740991 / 9007199254740992 ≤ 1 + d4 := by linarith
  have b1 : 1 + d1 ≤ 9007199254740993 / 9007199254740992 := by linarith
  have b3 : 1 + d3 ≤ 9007199254740993 / 9007199254740992 := by linarith
  have b4 : 1 + d4 ≤ 9007199254740993 / 9007199254740992 := by linarith
  have p1 : (0 : ℚ) ≤ 1 + d1 := by linarith
  have p3 : (0 : ℚ) ≤ 1 + d3 := by linarith
  have p4 : (0 : ℚ) ≤ 1 + d4 := by linarith
  have lo13 : 9007199254740991 / 9007199254740992 * (9007199254740991 / 9007199254740992)
      ≤ (1 + d1) * (1 + d3) := mul_le_mul a1 a3 (by norm_num) p1
  have hi13 : (1 + d1) * (1 + d3)
      ≤ 9007199254740993 / 9007199254740992 * (9007199254740993 / 9007199254740992) :=
    mul_le_mul b1 b3 p3 (by norm_num)
  have lo : 9007199254740991 / 9007199254740992 * (9007199254740991 / 9007199254740992)
      * (9007199254740991 / 9007199254740992) ≤ (1 + d1) * (1 + d3) * (1 + d4) :=
    mul_le_mul lo13 a4 (by norm_num) (mul_nonneg p1 p3)
  have hi : (1 + d1) * (1 + d3) * (1 + d4)
      ≤ 9007199254740993 / 9007199254740992 * (9007199254740993 / 9007199254740992)
        * (9007199254740993 / 9007199254740992) :=
    mul_le_mul hi13 b4 p4 (by norm_num)
  rw [abs_le]
  constructor
  · rw [le_sub_iff_add_le, le_div_iff₀ hD]
    norm_num at lo ⊢
    linarith
  · rw [sub_le_iff_le_add, div_le_iff₀ hD]
    norm_num at hi ⊢
    linarith

theorem abs_mul_factor (x δ : ℚ) (h : |δ| ≤ 1 / 2 ^ 53) :
    |x| / 2 ≤ |x * (1 + δ)| ∧ |x * (1 + δ)| ≤ 2 * |x| := by
  rw [abs_le] at h
  norm_num at h
  have hpos : (0 : ℚ) < 1 + δ := by linarith
  rw [abs_mul, abs_of_pos hpos]
  have hx := abs_nonneg x
  constructor <;> nlinarith

/-- Rounding of a value of moderate magnitude: finite, a factor `1 + δ` away from the exact
value with `|δ| ≤ 2^-53`, and of the same sign. -/
theorem F64.round_moderate (x : ℚ) (hlo : 1 / 2 ^ 80 ≤ |x|) (hhi : |x| ≤ 2 ^ 80) :
    ∃ r δ : ℚ, F64.round x = F64.fin r ∧ |δ| ≤ 1 / 2 ^ 53 ∧ r = x * (1 + δ) ∧
      (0 < x → 0 < r) ∧ (x < 0 → r < 0) := by
  have h3 : (2 : ℚ) ^ (-1022 : ℤ) ≤ 1 / 2 ^ 80 := by
    have : (1 : ℚ) / 2 ^ 80 = (2 : ℚ) ^ (-80 : ℤ) := by
      rw [zpow_neg, one_div]
      norm_num
    rw [this]
    exact zpow_le_zpow_right₀ (by norm_num) (by norm_num)
  have h4 : (2 : ℚ) ^ (80 : ℕ) < (2 : ℚ) ^ (1023 : ℤ) := by
    rw [← zpow_natCast]
    exact zpow_lt_zpow_right₀ (by norm_num) (by norm_num)
  obtain ⟨r, hr, hr1, hr2, hr3, -⟩ :=
    F64.round_normal x (le_trans h3 hlo) (lt_of_le_of_lt hhi h4)
  obtain ⟨δ, hδ, hrδ⟩ := exists_factor_of_relErr r x hr1
  exact ⟨r, δ, hr, hδ, hrδ, hr2, hr3⟩

/-- Line 175 for a non-empty original file: the value of `reduction` is finite, positive
exactly when the file shrank, and within a relative error of `2^-50` of the exact quotient
`(oldSize - newSize) / oldSize * 100`. -/
theorem reduction_spec (oldSize newSize : ℤ) (h1 : 0 < oldSize) (h2 : oldSize < 2 ^ 63)
    (h3 : 0 ≤ newSize) (h4 : newSize < 2 ^ 63) :
    ∃ red : ℚ, reduction oldSize newSize = F64.fin red ∧ (0 < red ↔ newSize < oldSize) ∧
      |red - ((oldSize : ℚ) - newSize) / oldSize * 100| ≤
        |((oldSize : ℚ) - newSize) / oldSize * 100| / 2 ^ 50 := by
  have hw : wrap64 (oldSize - newSize) = oldSize - newSize :=
    wrap64_of_int64 _ (by omega) (by omega)
  have ho1 : (1 : ℚ) ≤ (oldSize : ℚ) := by exact_mod_cast h1
  have ho2 : (oldSize : ℚ) ≤ 2 ^ 63 := by exact_mod_cast h2.le
  have hopos : (0 : ℚ) < oldSize := by linarith
  unfold reduction
  rw [hw]
  obtain ⟨b, hb, hb1, hb2, -, -⟩ :=
    F64.ofInt_int64 oldSize (ne_of_gt h1) (by rw [abs_of_pos h1]; omega)
  have hbpos : 0 < b := hb2 h1
  obtain ⟨δ2, hδ2, eb⟩ := exists_factor_of_relErr b _ hb1
  have hbb := abs_mul_factor (oldSize : ℚ) δ2 hδ2
  rw [← eb, abs_of_pos hbpos, abs_of_pos hopos] at hbb
  rw [hb]
  by_cases hd : oldSize - newSize = 0
  · rw [hd, F64.ofInt_zero]
    refine ⟨0, ?_, ?_, ?_⟩
    · simp [F64.div, F64.mul, F64.round, ne_of_gt hbpos]
    · simp only [lt_self_iff_false, false_iff]
      omega
    · have : (oldSize : ℚ) - newSize = 0 := by exact_mod_cast hd
      simp [this]
  · obtain ⟨a, ha, ha1, ha2, ha3, -⟩ :=
      F64.ofInt_int64 (oldSize - newSize) hd (by rw [abs_le]; omega)
    obtain ⟨δ1, hδ1, ea⟩ := exists_factor_of_relErr a _ ha1
    have hdq : (1 : ℚ) ≤ |((oldSize - newSize : ℤ) : ℚ)| := by
      have : (1 : ℤ) ≤ |oldSize - newSize| := Int.one_le_abs hd
      have : ((1 : ℤ) : ℚ) ≤ ((|oldSize - newSize| : ℤ) : ℚ) := by exact_mod_cast this
      simpa using this
    have hdq2 : |((oldSize - newSize : ℤ) : ℚ)| ≤ 2 ^ 63 := by
      have : |oldSize - newSize| ≤ 2 ^ 63 := by rw [abs_le]; omega
      have : ((|oldSize - newSize| : ℤ) : ℚ) ≤ ((2 ^ 63 : ℤ) : ℚ) := by exact_mod_cast this
      simpa using this
    have haa := abs_mul_factor ((oldSize - newSize : ℤ) : ℚ) δ1 hδ1
    rw [← ea] at haa
    rw [ha]
    have hdiv : F64.div (F64.fin a) (F64.fin b) = F64.round (a / b) := by
      simp [F64.div, ne_of_gt hbpos]
    rw [hdiv]
    have hab : |a / b| = |a| / b := by rw [abs_div, abs_of_pos hbpos]
    have hab1 : 1 / 2 ^ 65 ≤ |a / b| := by
      rw [hab, le_div_iff₀ hbpos]
      norm_num at haa hbb hdq hdq2 ho1 ho2 ⊢
      nlinarith
    have hab2 : |a / b| ≤ 2 ^ 65 := by
      rw [hab, div_le_iff₀ hbpos]
      norm_num at haa hbb hdq hdq2 ho1 ho2 ⊢
      nlinarith
    obtain ⟨q, δ3, hq, hδ3, eq, hq2, hq3⟩ := F64.round_moderate (a / b)
      (le_trans (by norm_num) hab1) (le_trans hab2 (by norm_num))
    have hqq := abs_mul_factor (a / b) δ3 hδ3
    rw [← eq] at hqq
    rw [hq]
    have hmul : F64.mul (F64.fin q) (F64.fin 100) = F64.round (q * 100) := rfl
    rw [hmul]
    have hq100 : |q * 100| = |q| * 100 := by rw [abs_mul]; norm_num
    obtain ⟨red, δ4, hred, hδ4, ered, hred2, hred3⟩ := F64.round_moderate (q * 100)
      (by rw [hq100]; norm_num at hqq hab1 hab2 ⊢; linarith)
      (by rw [hq100]; norm_num at hqq hab1 hab2 ⊢; linarith)
    refine ⟨red, hred, ?_, ?_⟩
    · constructor
      · intro hpos
        by_contra hc
        have hneg : oldSize - newSize < 0 := by omega
        have := hred3 (by
          have := hq3 (div_neg_of_neg_of_pos (ha3 hneg) hbpos)
          linarith)
        linarith
      · intro hlt
        have hp : 0 < oldSize - newSize := by omega
        exact hred2 (by
          have := hq2 (div_pos (ha2 hp) hbpos)
          linarith)
    · have hD : (1 : ℚ) + δ2 ≠ 0 := by
        rw [abs_le] at hδ2
        norm_num at hδ2
        intro h0
        linarith
      have hE : red = ((oldSize : ℚ) - newSize) / oldSize * 100 *
          ((1 + δ1) * (1 + δ3) * (1 + δ4) / (1 + δ2)) := by
        rw [ered, eq, ea, eb]
        push_cast
        field_simp
        ring
      have hF := factor_bound δ1 δ2 δ3 δ4 hδ1 hδ2 hδ3 hδ4
      generalize ((oldSize : ℚ) - newSize) / oldSize * 100 = E at hE ⊢
      generalize (1 + δ1) * (1 + δ3) * (1 + δ4) / (1 + δ2) = F at hE hF
      have : red - E = E * (F - 1) := by rw [hE]; ring
      rw [this, abs_mul]
      calc |E| * |F - 1| ≤ |E| * (1 / 2 ^ 50) :=
            mul_le_mul_of_nonneg_left hF (abs_nonneg E)
        _ = |E| / 2 ^ 50 := by ring

/-! ## Decimal formatting -/

theorem String_empty_append (s : String) : "" ++ s = s := by
  apply String.ext
  rw [String.data_append]
  rfl

theorem String_append_empty (s : String) : s ++ "" = s := by
  apply String.ext
  rw [String.data_append]
  exact List.append_nil _

theorem fmtScaled_zero (s : Nat) : fmtScaled 0 false s = toString s := by
  unfold fmtScaled
  simp only [pow_zero, Nat.div_one, Bool.false_eq_true, if_false, if_true, String_empty_append,
    String_append_empty]

theorem toString_digit_length (s : Nat) : (toString (s % 10)).length = 1 := by
  have h : s % 10 < 10 := Nat.mod_lt _ (by norm_num)
  generalize s % 10 = d at h
  interval_cases d <;> decide

theorem fmtScaled_one (s : Nat) :
    fmtScaled 1 false s = toString (s / 10) ++ "." ++ toString (s % 10) := by
  unfold fmtScaled
  simp only [pow_one, Bool.false_eq_true, if_false, toString_digit_length, Nat.sub_self,
    List.replicate_zero, one_ne_zero, String_empty_append]
  have : String.mk [] = "" := rfl
  rw [this, String_append_empty, String.append_assoc]

/-! ## The loop of `formatBytes` and the quotient it prints -/

/-- The loop of `formatBytes`, by its invariant `div * n ≤ b < div * (n + 1)`: it exits, no
multiplication overflows, and on exit `div` is `div₀ * 1024^t` for the number `t` of
iterations, with `div ≤ b < div * 1024`. -/
theorem formatBytesLoop_spec (b : ℤ) (hb : b < 2 ^ 63) :
    ∀ (fuel : ℕ) (n div : ℤ) (exp : ℕ), 1 ≤ n → 0 < div → div * n ≤ b → b < div * (n + 1) →
      n.toNat ≤ fuel →
      ∃ t : ℕ, formatBytesLoop fuel n div exp = some (div * 1024 ^ t, exp + t) ∧
        div * 1024 ^ t ≤ b ∧ b < div * 1024 ^ t * 1024 := by
  intro fuel
  induction fuel with
  | zero =>
    intro n div exp hn hdiv h1 h2 hfuel
    omega
  | succ fuel ih =>
    intro n div exp hn hdiv h1 h2 hfuel
    unfold formatBytesLoop
    by_cases hge : n ≥ unit
    · rw [if_pos hge]
      unfold unit at hge ⊢
      have hq : Int.tdiv n 1024 = n / 1024 := Int.tdiv_eq_ediv (by omega) (by norm_num)
      have hdn : div * 1024 ≤ div * n := mul_le_mul_of_nonneg_left hge hdiv.le
      have hw : wrap64 (div * 1024) = div * 1024 :=
        wrap64_of_int64 _ (by nlinarith) (by linarith)
      rw [hq, hw]
      have hn1 : 1 ≤ n / 1024 := by omega
      have hn2 : 1024 * (n / 1024) ≤ n := by omega
      have hn3 : n + 1 ≤ 1024 * (n / 1024 + 1) := by omega
      obtain ⟨t, ht, ht1, ht2⟩ := ih (n / 1024) (div * 1024) (exp + 1) hn1 (by linarith)
        (by nlinarith) (by nlinarith) (by omega)
      refine ⟨t + 1, ?_, ?_, ?_⟩
      · rw [ht]
        congr 2
        · ring
        · ring
      · calc div * 1024 ^ (t + 1) = div * 1024 * 1024 ^ t := by ring
          _ ≤ b := ht1
      · calc b < div * 1024 * 1024 ^ t * 1024 := ht2
          _ = div * 1024 ^ (t + 1) * 1024 := by ring
    · rw [if_neg hge]
      unfold unit at hge
      refine ⟨0, by simp, by simpa using le_trans (by nlinarith) h1, ?_⟩
      simp only [pow_zero, mul_one]
      nlinarith

/-- A value of moderate magnitude with a significand below `2^53` is not changed by
rounding. -/
theorem F64.round_exact_moderate (x : ℚ) (m j : ℤ) (hx : x = (m : ℚ) * 2 ^ j)
    (hm : |m| < 2 ^ 53) (hlo : x ≠ 0 → 1 / 2 ^ 80 ≤ |x|) (hhi : |x| ≤ 2 ^ 80) :
    F64.round x = F64.fin x := by
  have h3 : (2 : ℚ) ^ (-1022 : ℤ) ≤ 1 / 2 ^ 80 := by
    have : (1 : ℚ) / 2 ^ 80 = (2 : ℚ) ^ (-80 : ℤ) := by
      rw [zpow_neg, one_div]
      norm_num
    rw [this]
    exact zpow_le_zpow_right₀ (by norm_num) (by norm_num)
  have h4 : (2 : ℚ) ^ (80 : ℕ) < (2 : ℚ) ^ (1023 : ℤ) := by
    rw [← zpow_natCast]
    exact zpow_lt_zpow_right₀ (by norm_num) (by norm_num)
  subst hx
  refine F64.round_exact m j hm (fun hm0 => le_trans h3 (hlo ?_)) (lt_of_le_of_lt hhi h4)
  have h2 : (0 : ℚ) < 2 := by norm_num
  exact mul_ne_zero (by exact_mod_cast hm0) (ne_of_gt (zpow_pos h2 j))

theorem fmtFixed_of_scaled (prec : ℕ) (q : ℚ) (n : ℕ) (hq : 0 ≤ q) (h : q * 10 ^ prec = n) :
    fmtFixed prec q = fmtScaled prec false n := by
  unfold fmtFixed
  have h1 : decide (q < 0) = false := by simpa using hq
  have h2 : roundHalfEven (|q| * 10 ^ prec) = (n : ℤ) := by
    rw [abs_of_nonneg hq, h]
    exact roundHalfEven_intCast n
  rw [h1, h2, Int.toNat_natCast]

theorem fmtFixed_eval (prec : ℕ) (q : ℚ) (n : ℕ) (hq : 0 ≤ q)
    (h1 : |(n : ℚ) - q * 10 ^ prec| ≤ 1 / 2)
    (h2 : |(n : ℚ) - q * 10 ^ prec| = 1 / 2 → n % 2 = 0) :
    fmtFixed prec q = fmtScaled prec false n := by
  unfold fmtFixed
  have hd : decide (q < 0) = false := by simpa using hq
  have hr : roundHalfEven (|q| * 10 ^ prec) = (n : ℤ) := by
    rw [abs_of_nonneg hq]
    apply roundHalfEven_unique
    · simpa using h1
    · intro ht
      have := h2 (by simpa using ht)
      omega
  rw [hd, hr, Int.toNat_natCast]

/-- The verb `%.0f` on a non-negative value prints the integer nearest to it, the even one at
a tie. -/
theorem fmtFixed_zero_spec (q : ℚ) (hq : 0 ≤ q) :
    fmtFixed 0 q = toString (roundHalfEven q).toNat ∧
      |((roundHalfEven q).toNat : ℚ) - q| ≤ 1 / 2 ∧
      (|((roundHalfEven q).toNat : ℚ) - q| = 1 / 2 → (roundHalfEven q).toNat % 2 = 0) := by
  have h1 : decide (q < 0) = false := by simpa using hq
  have h0 : 0 ≤ roundHalfEven q := le_roundHalfEven 0 q (by simpa using hq)
  have hcast : (((roundHalfEven q).toNat : ℤ) : ℚ) = (roundHalfEven q : ℚ) := by
    rw [Int.toNat_of_nonneg h0]
  refine ⟨?_, ?_, ?_⟩
  · unfold fmtFixed
    rw [h1, abs_of_nonneg hq, pow_zero, mul_one, fmtScaled_zero]
  · rw [← Int.cast_natCast, hcast]
    exact roundHalfEven_sub_le q
  · rw [← Int.cast_natCast, hcast]
    intro ht
    have := roundHalfEven_tie_even q ht
    omega

/-- The verb `%.1f` on a non-negative value prints the number of tenths nearest to it, the
even one at a tie. -/
theorem fmtFixed_one_spec (q : ℚ) (hq : 0 ≤ q) :
    ∃ s : ℕ, fmtFixed 1 q = toString (s / 10) ++ "." ++ toString (s % 10) ∧
      |(s : ℚ) / 10 - q| ≤ 1 / 20 ∧ (|(s : ℚ) / 10 - q| = 1 / 20 → s % 2 = 0) := by
  have h1 : decide (q < 0) = false := by simpa using hq
  have hq10 : 0 ≤ q * 10 := by linarith
  have h0 : 0 ≤ roundHalfEven (q * 10) := le_roundHalfEven 0 _ (by simpa using hq10)
  have hcast : (((roundHalfEven (q * 10)).toNat : ℤ) : ℚ) = (roundHalfEven (q * 10) : ℚ) := by
    rw [Int.toNat_of_nonneg h0]
  have hscale : ∀ t : ℚ, |t / 10 - q| = |t - q * 10| / 10 := by
    intro t
    have : t / 10 - q = (t - q * 10) / 10 := by ring
    rw [this, abs_div]
    norm_num
  refine ⟨(roundHalfEven (q * 10)).toNat, ?_, ?_, ?_⟩
  · unfold fmtFixed
    rw [h1, abs_of_nonneg hq, pow_one, fmtScaled_one]
  · rw [hscale, ← Int.cast_natCast, hcast]
    have h := roundHalfEven_sub_le (q * 10)
    linarith
  · rw [hscale, ← Int.cast_natCast, hcast]
    intro ht
    have := roundHalfEven_tie_even (q * 10) (by linarith)
    omega

theorem F64.ofInt_pow1024 (k : ℕ) (hk : k ≤ 6) :
    F64.ofInt (1024 ^ k) = F64.fin (1024 ^ k) := by
  have h : (((1024 : ℤ) ^ k : ℤ) : ℚ) = ((1 : ℤ) : ℚ) * 2 ^ ((10 * k : ℕ) : ℤ) := by
    rw [zpow_natCast, pow_mul]
    norm_num
  have hpos : (0 : ℚ) < (1024 : ℚ) ^ k := by positivity
  have h1 : (1 : ℚ) ≤ (1024 : ℚ) ^ k := one_le_pow₀ (by norm_num)
  have h2 : (1024 : ℚ) ^ k ≤ 1024 ^ 6 := pow_le_pow_right₀ (by norm_num) hk
  have := F64.round_exact_moderate _ 1 ((10 * k : ℕ) : ℤ) h (by norm_num)
    (fun _ => by
      push_cast
      rw [abs_of_pos hpos]
      exact le_trans (by norm_num) h1)
    (by
      push_cast
      rw [abs_of_pos hpos]
      exact le_trans h2 (by norm_num))
  unfold F64.ofInt
  rw [this]
  push_cast
  rfl

/-- The quotient of line 198: the conversion of `b` divided by a power of 1024 is computed
without a further rounding. -/
theorem F64.div_ofInt_pow1024 (b : ℤ) (k : ℕ) (hb1 : 1024 ≤ b) (hb2 : b < 2 ^ 63)
    (hk : k ≤ 6) :
    ∃ y : ℚ, F64.ofInt b = F64.fin y ∧ |y - b| ≤ (b : ℚ) / 2 ^ 53 ∧ (b < 2 ^ 53 → y = b) ∧
      F64.div (F64.ofInt b) (F64.ofInt (1024 ^ k)) = F64.fin (y / 1024 ^ k) := by
  have hbq1 : (1024 : ℚ) ≤ (b : ℚ) := by exact_mod_cast hb1
  have hbq2 : (b : ℚ) ≤ 2 ^ 63 := by exact_mod_cast hb2.le
  have hbpos : (0 : ℚ) < b := by linarith
  obtain ⟨y, hy, hy1, hy2, -, m, j, hm, hmj⟩ :=
    F64.ofInt_int64 b (by omega) (by rw [abs_of_pos (by omega)]; omega)
  have hypos : 0 < y := hy2 (by omega)
  rw [abs_of_pos hbpos] at hy1
  have hyb := abs_le.mp hy1
  have hp1 : (1 : ℚ) ≤ (1024 : ℚ) ^ k := one_le_pow₀ (by norm_num)
  have hp2 : (1024 : ℚ) ^ k ≤ 1024 ^ 6 := pow_le_pow_right₀ (by norm_num) hk
  have hppos : (0 : ℚ) < (1024 : ℚ) ^ k := by linarith
  refine ⟨y, hy, hy1, ?_, ?_⟩
  · intro hlt
    have := F64.ofInt_exact b (by rw [abs_of_pos (by omega)]; exact hlt)
    rw [hy] at this
    exact F64.fin.inj this
  · rw [hy, F64.ofInt_pow1024 k hk]
    have hdiv : F64.div (F64.fin y) (F64.fin (1024 ^ k)) = F64.round (y / 1024 ^ k) := by
      simp [F64.div]
    rw [hdiv]
    have hq : y / 1024 ^ k = (m : ℚ) * 2 ^ (j - ((10 * k : ℕ) : ℤ)) := by
      rw [hmj, zpow_sub₀ (by norm_num), zpow_natCast, pow_mul]
      norm_num
      ring
    have hqpos : 0 < y / 1024 ^ k := div_pos hypos hppos
    apply F64.round_exact_moderate _ m _ hq hm
    · intro _
      rw [abs_of_pos hqpos, le_div_iff₀ hppos]
      norm_num at hyb hbq1 hbq2 hp2 ⊢
      nlinarith
    · rw [abs_of_pos hqpos, div_le_iff₀ hppos]
      norm_num at hyb hbq1 hbq2 hp2 ⊢
      nlinarith

theorem KMGTPE_get (t : ℕ) (ht : t ≤ 5) : ∃ c, "KMGTPE".data.get? t = some c := by
  interval_cases t <;> exact ⟨_, rfl⟩

/-- The function `formatBytes` on sizes of at least 1024 bytes. -/
theorem formatBytes_large (b : ℤ) (hb1 : 1024 ≤ b) (hb2 : b < 2 ^ 63) :
    ∃ k : ℕ, 1 ≤ k ∧ k ≤ 6 ∧ (1024 : ℤ) ^ k ≤ b ∧ b < 1024 ^ (k + 1) ∧
      formatBytesLoop b.toNat (Int.tdiv b unit) unit 0 = some (1024 ^ k, k - 1) ∧
      ∃ (c : Char) (y : ℚ), "KMGTPE".data.get? (k - 1) = some c ∧
        F64.ofInt b = F64.fin y ∧ |y - b| ≤ (b : ℚ) / 2 ^ 53 ∧ (b < 2 ^ 53 → y = b) ∧
        formatBytes b =
          some (fmtFixed 1 (y / 1024 ^ k) ++ " " ++ String.singleton c ++ "B") := by
  have hq : Int.tdiv b 1024 = b / 1024 := Int.tdiv_eq_ediv (by omega) (by norm_num)
  obtain ⟨t, ht, ht1, ht2⟩ := formatBytesLoop_spec b hb2 b.toNat (Int.tdiv b 1024) 1024 0
    (by rw [hq]; omega) (by norm_num) (by rw [hq]; omega) (by rw [hq]; omega)
    (by rw [hq]; omega)
  have ht6 : t + 1 ≤ 6 := by
    by_contra hc
    have h7 : (1024 : ℤ) ^ 7 ≤ 1024 ^ (t + 1) := pow_le_pow_right₀ (by norm_num) (by omega)
    have : (1024 : ℤ) * 1024 ^ t = 1024 ^ (t + 1) := by ring
    norm_num at h7 hb2
    omega
  have e1 : (1024 : ℤ) * 1024 ^ t = 1024 ^ (t + 1) := by ring
  have e2 : (1024 : ℤ) * 1024 ^ t * 1024 = 1024 ^ (t + 1 + 1) := by ring
  rw [e1] at ht ht1
  rw [e2] at ht2
  rw [Nat.zero_add] at ht
  obtain ⟨c, hc⟩ := KMGTPE_get t (by omega)
  obtain ⟨y, hy, hy1, hy2, hy3⟩ := F64.div_ofInt_pow1024 b (t + 1) hb1 hb2 ht6
  refine ⟨t + 1, by omega, ht6, ht1, ht2, ht, c, y, hc, hy, hy1, hy2, ?_⟩
  unfold formatBytes
  rw [if_neg (by unfold unit; omega)]
  have ht' : formatBytesLoop b.toNat (b.tdiv unit) unit 0 = some (1024 ^ (t + 1), t) := ht
  simp only [ht', hc, hy3]
  rfl

/-! ## Evaluating the change line -/

/-- Line 175 on sizes for which every intermediate value is representable: no rounding
occurs. `m1, j1` and `m2, j2` exhibit the quotient and the percentage as binary64 values. -/
theorem reduction_of_exact (oldSize newSize m1 j1 m2 j2 : ℤ) (h0 : oldSize ≠ 0)
    (hold : |oldSize| < 2 ^ 53) (hd : |oldSize - newSize| < 2 ^ 53)
    (hq : ((oldSize - newSize : ℤ) : ℚ) / oldSize = (m1 : ℚ) * 2 ^ j1) (hm1 : |m1| < 2 ^ 53)
    (hp : ((oldSize - newSize : ℤ) : ℚ) / oldSize * 100 = (m2 : ℚ) * 2 ^ j2)
    (hm2 : |m2| < 2 ^ 53)
    (hlo : ((oldSize - newSize : ℤ) : ℚ) / oldSize ≠ 0 →
      1 / 2 ^ 70 ≤ |((oldSize - newSize : ℤ) : ℚ) / oldSize|)
    (hhi : |((oldSize - newSize : ℤ) : ℚ) / oldSize| ≤ 2 ^ 70) :
    reduction oldSize newSize = F64.fin (((oldSize - newSize : ℤ) : ℚ) / oldSize * 100) := by
  have hw : wrap64 (oldSize - newSize) = oldSize - newSize := by
    rw [abs_lt] at hd
    exact wrap64_of_int64 _ (by norm_num at hd ⊢; omega) (by norm_num at hd ⊢; omega)
  have ho : (oldSize : ℚ) ≠ 0 := by exact_mod_cast h0
  unfold reduction
  rw [hw, F64.ofInt_exact _ hold, F64.ofInt_exact _ hd]
  have hdiv : F64.div (F64.fin ((oldSize - newSize : ℤ) : ℚ)) (F64.fin (oldSize : ℚ)) =
      F64.round (((oldSize - newSize : ℤ) : ℚ) / oldSize) := by
    simp [F64.div, ho]
  rw [hdiv]
  generalize ((oldSize - newSize : ℤ) : ℚ) / oldSize = q at *
  rw [F64.round_exact_moderate q m1 j1 hq hm1
    (fun h => le_trans (by norm_num) (hlo h)) (le_trans hhi (by norm_num))]
  have hmul : F64.mul (F64.fin q) (F64.fin 100) = F64.round (q * 100) := rfl
  rw [hmul]
  have habs : |q * 100| = |q| * 100 := by rw [abs_mul]; norm_num
  apply F64.round_exact_moderate (q * 100) m2 j2 hp hm2
  · intro h
    have hq0 : q ≠ 0 := fun hc => h (by rw [hc]; ring)
    have := hlo hq0
    rw [habs]
    norm_num at this ⊢
    linarith
  · rw [habs]
    norm_num at hhi ⊢
    linarith

/-- The change line when `reduction` is finite with an integer magnitude. -/
theorem changeLine_of_reduction (oldSize newSize : ℤ) (r : ℚ) (k : ℕ)
    (h : reduction oldSize newSize = F64.fin r) (hk : |r| = k) :
    changeLine oldSize newSize =
      "Change: " ++ toString k ++ (if 0 < r then "% smaller\n" else "% LARGER\n") := by
  unfold changeLine
  rw [h]
  have hf : fmtF 0 (F64.fin r).abs = toString k := by
    show fmtFixed 0 |r| = toString k
    rw [fmtFixed_of_scaled 0 |r| k (abs_nonneg r) (by rw [hk]; ring), fmtScaled_zero]
  rw [hf]
  by_cases hr : 0 < r
  · simp only [F64.gtZero, hr, decide_True, if_true]
  · simp only [F64.gtZero, hr, decide_False, Bool.false_eq_true, if_false]

theorem changeLine_2000_1000 : changeLine 2000 1000 = "Change: 50% smaller\n" := by
  have h := reduction_of_exact 2000 1000 1 (-1) 50 0 (by norm_num) (by norm_num) (by norm_num)
    (by norm_num) (by norm_num) (by norm_num) (by norm_num)
    (fun _ => by rw [le_abs]; norm_num) (by rw [abs_le]; norm_num)
  rw [changeLine_of_reduction 2000 1000 _ 50 h (by norm_num)]
  norm_num
  decide

theorem changeLine_1000_1500 : changeLine 1000 1500 = "Change: 50% LARGER\n" := by
  have h := reduction_of_exact 1000 1500 (-1) (-1) (-50) 0 (by norm_num) (by norm_num)
    (by norm_num) (by norm_num) (by norm_num) (by norm_num) (by norm_num)
    (fun _ => by rw [le_abs]; norm_num) (by rw [abs_le]; norm_num)
  rw [changeLine_of_reduction 1000 1500 _ 50 h (by norm_num)]
  norm_num
  decide

theorem changeLine_1000_1000 : changeLine 1000 1000 = "Change: 0% LARGER\n" := by
  have h := reduction_of_exact 1000 1000 0 0 0 0 (by norm_num) (by norm_num)
    (by norm_num) (by norm_num) (by norm_num) (by norm_num) (by norm_num)
    (fun h => absurd (by norm_num) h) (by norm_num)
  rw [changeLine_of_reduction 1000 1000 _ 0 h (by norm_num)]
  norm_num
  decide

theorem changeLine_zero_zero : reduction 0 0 = F64.nan ∧
    changeLine 0 0 = "Change: NaN% LARGER\n" := by
  have hw : wrap64 (0 - 0) = 0 := by decide
  have hr : reduction 0 0 = F64.nan := by
    unfold reduction
    rw [hw, F64.ofInt_zero]
    simp [F64.div, F64.mul]
  refine ⟨hr, ?_⟩
  unfold changeLine
  rw [hr]
  decide

theorem changeLine_zero_pos (newSize : ℤ) (h3 : 0 < newSize) (h4 : newSize < 2 ^ 63) :
    reduction 0 newSize = F64.inf true ∧
    changeLine 0 newSize = "Change: +Inf% LARGER\n" := by
  have hw : wrap64 (0 - newSize) = -newSize := by
    rw [zero_sub]
    exact wrap64_of_int64 _ (by omega) (by omega)
  obtain ⟨a, ha, -, -, ha3, -⟩ :=
    F64.ofInt_int64 (-newSize) (by omega) (by rw [abs_le]; omega)
  have haneg : a < 0 := ha3 (by omega)
  have hr : reduction 0 newSize = F64.inf true := by
    unfold reduction
    rw [hw, F64.ofInt_zero, ha]
    simp [F64.div, F64.mul, ne_of_lt haneg, haneg]
  refine ⟨hr, ?_⟩
  unfold changeLine
  rw [hr]
  decide

/-- The change line when `reduction` is finite, from the integer `k` nearest to its
magnitude. -/
theorem changeLine_eval (oldSize newSize : ℤ) (r : ℚ) (k : ℕ)
    (h : reduction oldSize newSize = F64.fin r) (h1 : |(k : ℚ) - abs r| ≤ 1 / 2)
    (h2 : |(k : ℚ) - abs r| = 1 / 2 → k % 2 = 0) :
    changeLine oldSize newSize =
      "Change: " ++ toString k ++ (if 0 < r then "% smaller\n" else "% LARGER\n") := by
  unfold changeLine
  rw [h]
  have hf : fmtF 0 (F64.fin r).abs = toString k := by
    show fmtFixed 0 |r| = toString k
    rw [fmtFixed_eval 0 |r| k (abs_nonneg r) (by simpa using h1) (by simpa using h2),
      fmtScaled_zero]
  rw [hf]
  by_cases hr : 0 < r
  · simp only [F64.gtZero, hr, decide_True, if_true]
  · simp only [F64.gtZero, hr, decide_False, Bool.false_eq_true, if_false]

theorem reduction_large_sizes :
    reduction 20651740272311608 11668233253856059 = F64.fin (87 / 2) := by
  have hw : wrap64 (20651740272311608 - 11668233253856059) = 8983507018455549 := by decide
  have ha : F64.ofInt 8983507018455549 = F64.fin 8983507018455549 := by
    simpa using F64.ofInt_exact 8983507018455549 (by norm_num)
  have hb : F64.ofInt 20651740272311608 = F64.fin 20651740272311608 := by
    have := F64.round_exact_moderate (20651740272311608 : ℚ) 2581467534038951 3
      (by norm_num) (by norm_num) (fun _ => by rw [le_abs]; norm_num)
      (by rw [abs_le]; norm_num)
    simpa [F64.ofInt] using this
  have hdiv : F64.div (F64.fin 8983507018455549) (F64.fin 20651740272311608) =
      F64.round (8983507018455549 / 20651740272311608) := by
    simp [F64.div]
  have hq : F64.round (8983507018455549 / 20651740272311608) =
      F64.fin ((7836263351624663 : ℤ) * 2 ^ ((-2 : ℤ) - 52)) := by
    apply F64.round_eval
    · rw [le_abs]; left; norm_num
    · rw [abs_lt]; constructor <;> norm_num
    · norm_num
    · norm_num
    · rw [abs_le]; constructor <;> norm_num
    · intro ht
      exfalso
      have hlt : |((7836263351624663 : ℤ) : ℚ) -
          8983507018455549 / 20651740272311608 / 2 ^ ((-2 : ℤ) - 52)| < 1 / 2 := by
        rw [abs_lt]; constructor <;> norm_num
      linarith
  have hmul : F64.mul (F64.fin ((7836263351624663 : ℤ) * 2 ^ ((-2 : ℤ) - 52))) (F64.fin 100) =
      F64.round ((7836263351624663 : ℤ) * 2 ^ ((-2 : ℤ) - 52) * 100) := rfl
  have hred : F64.round ((7836263351624663 : ℤ) * 2 ^ ((-2 : ℤ) - 52) * 100) =
      F64.fin ((6122080743456768 : ℤ) * 2 ^ ((5 : ℤ) - 52)) := by
    apply F64.round_eval
    · rw [le_abs]; left; norm_num
    · rw [abs_lt]; constructor <;> norm_num
    · norm_num
    · norm_num
    · rw [abs_le]; constructor <;> norm_num
    · intro ht
      exfalso
      have hlt : |((6122080743456768 : ℤ) : ℚ) -
          (7836263351624663 : ℤ) * 2 ^ ((-2 : ℤ) - 52) * 100 / 2 ^ ((5 : ℤ) - 52)| < 1 / 2 := by
        rw [abs_lt]; constructor <;> norm_num
      linarith
  unfold reduction
  rw [hw, ha, hb, hdiv, hq, hmul, hred]
  congr 1
  norm_num

theorem changeLine_large_sizes :
    changeLine 20651740272311608 11668233253856059 = "Change: 44% smaller\n" := by
  rw [changeLine_eval _ _ (87 / 2) 44 reduction_large_sizes
    (by rw [abs_le]; constructor <;> norm_num [abs_of_pos]) (fun _ => by norm_num)]
  norm_num
  decide

theorem not_smaller_of_larger (digits : String) :
    "Change: 0% LARGER\n" ≠ "Change: " ++ digits ++ "% smaller\n" := by
  intro h
  have h1 := congrArg (fun s : String => s.data.reverse.get? 1) h
  simp only [String.data_append, List.reverse_append] at h1
  have h2 : (['%', ' ', 's', 'm', 'a', 'l', 'l', 'e', 'r', '\n'].reverse ++
      (digits.data.reverse ++ ['C', 'h', 'a', 'n', 'g', 'e', ':', ' '].reverse)).get? 1
      = some 'r' := rfl
  rw [h2] at h1
  revert h1
  decide

/-! ## The size report -/

/-- C3, as the specification words it, fails in two ways. When the size is unchanged the
label is not `smaller`: sizes 1000 and 1000 give `Change: 0% LARGER`. And the number shown is
not always the exact quotient rounded to the nearest integer: for the sizes
20651740272311608 and 11668233253856059 the exact percentage lies below 43.5, its nearest
integer is 43, and the line reads `Change: 44% smaller`. -/
theorem C3_counterexample :
    ((0 : ℤ) < 1000 ∧ (1000 : ℤ) ≤ 1000 ∧ changeLine 1000 1000 = "Change: 0% LARGER\n" ∧
      ¬ ∃ digits : String, changeLine 1000 1000 = "Change: " ++ digits ++ "% smaller\n") ∧
    (changeLine 20651740272311608 11668233253856059 = "Change: 44% smaller\n" ∧
      |(43 : ℚ) - ((20651740272311608 : ℚ) - 11668233253856059) / 20651740272311608 * 100|
        < 1 / 2 ∧
      1 / 2 <
        |(44 : ℚ) - ((20651740272311608 : ℚ) - 11668233253856059) / 20651740272311608 * 100|)
    := by
  refine ⟨⟨by norm_num, le_refl _, changeLine_1000_1000, ?_⟩, changeLine_large_sizes, ?_, ?_⟩
  · rintro ⟨digits, h⟩
    rw [changeLine_1000_1000] at h
    exact not_smaller_of_larger digits h
  · rw [abs_lt]
    constructor <;> norm_num
  · rw [lt_abs]
    left
    norm_num

/-- C3, amended: for `int64` sizes with `oldSize > 0` and `newSize ≥ 0`, the change line is
labelled `smaller` exactly when the output shrank (`newSize < oldSize`) and `LARGER` when it
grew or stayed the same; the number shown is the integer nearest to the magnitude of the
`float64` value of `(oldSize - newSize) / oldSize * 100`, the even one at a tie; that value
is finite and within a relative error of `2^-50` of the exact quotient. Sizes 2000 and 1000
give `50% smaller`, sizes 1000 and 1500 give `50% LARGER`. -/
theorem C3_change_line (oldSize newSize : ℤ) (h1 : 0 < oldSize) (h2 : oldSize < 2 ^ 63)
    (h3 : 0 ≤ newSize) (h4 : newSize < 2 ^ 63) :
    (∃ (red : ℚ) (n : ℕ), reduction oldSize newSize = F64.fin red ∧
      |red - ((oldSize : ℚ) - newSize) / oldSize * 100| ≤
        |((oldSize : ℚ) - newSize) / oldSize * 100| / 2 ^ 50 ∧
      |(n : ℚ) - abs red| ≤ 1 / 2 ∧ (|(n : ℚ) - abs red| = 1 / 2 → n % 2 = 0) ∧
      changeLine oldSize newSize = "Change: " ++ toString n ++
        (if newSize < oldSize then "% smaller\n" else "% LARGER\n")) ∧
    changeLine 2000 1000 = "Change: 50% smaller\n" ∧
    changeLine 1000 1500 = "Change: 50% LARGER\n" := by
  refine ⟨?_, changeLine_2000_1000, changeLine_1000_1500⟩
  obtain ⟨red, hred, hsign, herr⟩ := reduction_spec oldSize newSize h1 h2 h3 h4
  obtain ⟨hfmt, hnear, htie⟩ := fmtFixed_zero_spec |red| (abs_nonneg red)
  refine ⟨red, (roundHalfEven |red|).toNat, hred, herr, hnear, htie, ?_⟩
  unfold changeLine
  rw [hred]
  have hf : fmtF 0 (F64.fin red).abs = toString (roundHalfEven |red|).toNat := hfmt
  rw [hf]
  by_cases hlt : newSize < oldSize
  · have hpos : 0 < red := hsign.mpr hlt
    simp only [F64.gtZero, hpos, hlt, decide_True, if_true]
  · have hnpos : ¬ 0 < red := fun hc => hlt (hsign.mp hc)
    simp only [F64.gtZero, hnpos, hlt, decide_False, Bool.false_eq_true, if_false]

/-- C3, amended, at the sizes 3 and 1: the hypotheses hold and the line is labelled
`smaller`. -/
theorem C3_change_line_witness :
    (0 : ℤ) < 3 ∧ (3 : ℤ) < 2 ^ 63 ∧ (0 : ℤ) ≤ 1 ∧ (1 : ℤ) < 2 ^ 63 ∧
    ∃ (red : ℚ) (n : ℕ), reduction 3 1 = F64.fin red ∧
      |red - ((3 : ℤ) - (1 : ℤ) : ℚ) / (3 : ℤ) * 100| ≤
        |((3 : ℤ) - (1 : ℤ) : ℚ) / (3 : ℤ) * 100| / 2 ^ 50 ∧
      |(n : ℚ) - abs red| ≤ 1 / 2 ∧ (|(n : ℚ) - abs red| = 1 / 2 → n % 2 = 0) ∧
      changeLine 3 1 = "Change: " ++ toString n ++
        (if (1 : ℤ) < 3 then "% smaller\n" else "% LARGER\n") :=
  ⟨by norm_num, by norm_num, by norm_num, by norm_num,
    (C3_change_line 3 1 (by norm_num) (by norm_num) (by norm_num) (by norm_num)).1⟩

/-- C4, as the specification words it, fails: with both sizes 0 the quotient is NaN and the
report prints it. -/
theorem C4_counterexample :
    reduction 0 0 = F64.nan ∧ changeLine 0 0 = "Change: NaN% LARGER\n" :=
  changeLine_zero_zero

/-- C4, amended: when the original size is 0 no fallback is applied. The change line is
`Change: NaN% LARGER` when the new size is 0 as well and `Change: +Inf% LARGER` when it is
positive. -/
theorem C4_zero_original_size (newSize : ℤ) (h3 : 0 ≤ newSize) (h4 : newSize < 2 ^ 63) :
    changeLine 0 newSize =
      if newSize = 0 then "Change: NaN% LARGER\n" else "Change: +Inf% LARGER\n" := by
  by_cases h0 : newSize = 0
  · rw [if_pos h0, h0]
    exact changeLine_zero_zero.2
  · rw [if_neg h0]
    exact (changeLine_zero_pos newSize (by omega) h4).2

/-- C4, amended, at the new size 10: the hypotheses hold and the line shows `+Inf`. -/
theorem C4_zero_original_size_witness :
    (0 : ℤ) ≤ 10 ∧ (10 : ℤ) < 2 ^ 63 ∧ changeLine 0 10 = "Change: +Inf% LARGER\n" :=
  ⟨by norm_num, by norm_num, C4_zero_original_size 10 (by norm_num) (by norm_num)⟩

/-! ## `formatBytes` -/

theorem formatBytes_1536 : formatBytes 1536 = some "1.5 KB" := by
  obtain ⟨k, hk1, hk6, hle, hlt, -, c, y, hc, -, -, hy, hfmt⟩ :=
    formatBytes_large 1536 (by norm_num) (by norm_num)
  have hk : k = 1 := by
    interval_cases k <;> norm_num at hle hlt ⊢
  subst hk
  have hc' : c = 'K' := by
    have : some 'K' = some c := hc
    exact (Option.some.inj this).symm
  have hy' : y = 1536 := by simpa using hy (by norm_num)
  rw [hfmt, hc', hy', fmtFixed_of_scaled 1 _ 15 (by norm_num) (by norm_num)]
  decide

theorem formatBytes_1048576 : formatBytes 1048576 = some "1.0 MB" := by
  obtain ⟨k, hk1, hk6, hle, hlt, -, c, y, hc, -, -, hy, hfmt⟩ :=
    formatBytes_large 1048576 (by norm_num) (by norm_num)
  have hk : k = 2 := by
    interval_cases k <;> norm_num at hle hlt ⊢
  subst hk
  have hc' : c = 'M' := by
    have : some 'M' = some c := hc
    exact (Option.some.inj this).symm
  have hy' : y = 1048576 := by simpa using hy (by norm_num)
  rw [hfmt, hc', hy', fmtFixed_of_scaled 1 _ 10 (by norm_num) (by norm_num)]
  decide

theorem ofInt_tie : F64.ofInt 9288674231451649 = F64.fin 9288674231451648 := by
  have h : F64.round (9288674231451649 : ℚ) =
      F64.fin ((4644337115725824 : ℤ) * 2 ^ ((53 : ℤ) - 52)) := by
    apply F64.round_eval
    · rw [le_abs]; left; norm_num
    · rw [abs_lt]; constructor <;> norm_num
    · norm_num
    · norm_num
    · rw [abs_le]; constructor <;> norm_num
    · intro _
      norm_num
  unfold F64.ofInt
  have e : ((9288674231451649 : ℤ) : ℚ) = 9288674231451649 := by norm_num
  rw [e, h]
  congr 1
  norm_num

theorem formatBytes_tie : formatBytes 9288674231451649 = some "8.2 PB" := by
  obtain ⟨k, hk1, hk6, hle, hlt, -, c, y, hc, hy, -, -, hfmt⟩ :=
    formatBytes_large 9288674231451649 (by norm_num) (by norm_num)
  have hk : k = 5 := by
    interval_cases k <;> norm_num at hle hlt ⊢
  subst hk
  have hc' : c = 'P' := by
    have : some 'P' = some c := hc
    exact (Option.some.inj this).symm
  have hy' : y = 9288674231451648 := by
    rw [ofInt_tie] at hy
    exact (F64.fin.inj hy).symm
  rw [hfmt, hc', hy', fmtFixed_eval 1 _ 82 (by norm_num)
    (by rw [abs_le]; constructor <;> norm_num) (fun _ => by norm_num)]
  decide

/-- C5, as the specification words it, fails above `2^53`: for `b = 33 * 2^48 + 1`, which lies
between `1024^5` and `1024^6`, the result is `8.2 PB`, while `b / 1024^5` is more than `1/20`
away from 8.2 and less than `1/20` away from 8.3. -/
theorem C5_counterexample :
    formatBytes 9288674231451649 = some "8.2 PB" ∧
    (1024 : ℤ) ^ 5 ≤ 9288674231451649 ∧ (9288674231451649 : ℤ) < 1024 ^ 6 ∧
    1 / 20 < |(82 : ℚ) / 10 - 9288674231451649 / 1024 ^ 5| ∧
    |(83 : ℚ) / 10 - 9288674231451649 / 1024 ^ 5| < 1 / 20 := by
  refine ⟨formatBytes_tie, by norm_num, by norm_num, ?_, ?_⟩
  · rw [lt_abs]
    right
    norm_num
  · rw [abs_lt]
    constructor <;> norm_num

/-- C5, amended: `formatBytes` on any `b < 2^63`, so on every `int64`. Below 1024 the result
is the integer followed by ` B`.
From 1024 on there is exactly one `k` with `1024^k ≤ b < 1024^(k+1)`, and `1 ≤ k ≤ 6`; the
loop ends with `div = 1024^k`, no product having overflowed, and `exp = k - 1`, which is a
valid index into `KMGTPE`; the result is the quotient by `1024^k` of `b` converted to
`float64` (which is `b` itself below `2^53`, and within `b / 2^53` of it always), printed as
the nearest number of tenths, the even one at a tie, followed by a blank, the unit letter and
`B`; the number printed is within `1/20 + 2^-43` of `b / 1024^k`. The three examples of the specification evaluate as
stated. -/
theorem C5_formatBytes (b : ℤ) (hhi : b < 2 ^ 63) :
    (b < 1024 → formatBytes b = some (fmtD b ++ " B")) ∧
    (1024 ≤ b → ∃ k : ℕ, (1 ≤ k ∧ k ≤ 6 ∧ (1024 : ℤ) ^ k ≤ b ∧ b < 1024 ^ (k + 1)) ∧
      (∀ k' : ℕ, (1024 : ℤ) ^ k' ≤ b → b < 1024 ^ (k' + 1) → k' = k) ∧
      formatBytesLoop b.toNat (Int.tdiv b unit) unit 0 = some (1024 ^ k, k - 1) ∧
      ∃ (c : Char) (y : ℚ) (s : ℕ), "KMGTPE".data.get? (k - 1) = some c ∧
        F64.ofInt b = F64.fin y ∧ |y - b| ≤ (b : ℚ) / 2 ^ 53 ∧ (b < 2 ^ 53 → y = b) ∧
        |(s : ℚ) / 10 - y / 1024 ^ k| ≤ 1 / 20 ∧
        (|(s : ℚ) / 10 - y / 1024 ^ k| = 1 / 20 → s % 2 = 0) ∧
        |(s : ℚ) / 10 - (b : ℚ) / 1024 ^ k| ≤ 1 / 20 + 1 / 2 ^ 43 ∧
        formatBytes b = some (toString (s / 10) ++ "." ++ toString (s % 10) ++ " " ++
          String.singleton c ++ "B")) ∧
    formatBytes 500 = some "500 B" ∧ formatBytes 1536 = some "1.5 KB" ∧
    formatBytes 1048576 = some "1.0 MB" := by
  refine ⟨?_, ?_, by decide, formatBytes_1536, formatBytes_1048576⟩
  · intro hb
    unfold formatBytes
    rw [if_pos (by unfold unit; exact hb)]
  · intro hb
    obtain ⟨k, hk1, hk6, hle, hlt, hloop, c, y, hc, hy, hy1, hy2, hfmt⟩ :=
      formatBytes_large b hb hhi
    refine ⟨k, ⟨hk1, hk6, hle, hlt⟩, ?_, hloop, ?_⟩
    · intro k' hle' hlt'
      by_contra hne
      rcases Nat.lt_or_gt_of_ne hne with hc' | hc'
      · have : (1024 : ℤ) ^ (k' + 1) ≤ 1024 ^ k := pow_le_pow_right₀ (by norm_num) hc'
        omega
      · have : (1024 : ℤ) ^ (k + 1) ≤ 1024 ^ k' := pow_le_pow_right₀ (by norm_num) hc'
        omega
    · have hbq : (1024 : ℚ) ≤ (b : ℚ) := by exact_mod_cast hb
      have hyb := abs_le.mp hy1
      have hK : (0 : ℚ) < 1024 ^ k := by positivity
      have hypos : 0 ≤ y / 1024 ^ k := by
        have : 0 ≤ y := by
          norm_num at hyb
          linarith
        positivity
      obtain ⟨s, hs, hs1, hstie⟩ := fmtFixed_one_spec (y / 1024 ^ k) hypos
      refine ⟨c, y, s, hc, hy, hy1, hy2, hs1, hstie, ?_, ?_⟩
      · have hbK : (b : ℚ) / 1024 ^ k < 1024 := by
          rw [div_lt_iff₀ hK]
          have : (b : ℚ) < ((1024 ^ (k + 1) : ℤ) : ℚ) := by exact_mod_cast hlt
          push_cast at this
          rw [pow_succ] at this
          linarith
        have e1 : y / 1024 ^ k - (b : ℚ) / 1024 ^ k = (y - b) / 1024 ^ k := by ring
        have h5 : (y - b) / 1024 ^ k ≤ (b : ℚ) / 2 ^ 53 / 1024 ^ k :=
          div_le_div_of_nonneg_right hyb.2 hK.le
        have h6 : -((b : ℚ) / 2 ^ 53) / 1024 ^ k ≤ (y - b) / 1024 ^ k :=
          div_le_div_of_nonneg_right hyb.1 hK.le
        have e2 : (b : ℚ) / 2 ^ 53 / 1024 ^ k = (b : ℚ) / 1024 ^ k / 2 ^ 53 := by ring
        have e3 : -((b : ℚ) / 2 ^ 53) / 1024 ^ k = -((b : ℚ) / 1024 ^ k / 2 ^ 53) := by ring
        rw [e2] at h5
        rw [e3] at h6
        have hs2 := abs_le.mp hs1
        rw [abs_le]
        norm_num at h5 h6 hbK hs2 ⊢
        constructor <;> linarith
      · rw [hfmt, hs]

/-- C5, amended, at 5 GiB: the hypothesis holds and the size is at least 1024, so the second part of the
statement applies. -/
theorem C5_formatBytes_witness :
    (5368709120 : ℤ) < 2 ^ 63 ∧
    ∃ k : ℕ, (1 ≤ k ∧ k ≤ 6 ∧ (1024 : ℤ) ^ k ≤ 5368709120 ∧ (5368709120 : ℤ) < 1024 ^ (k + 1)) ∧
      (∀ k' : ℕ, (1024 : ℤ) ^ k' ≤ 5368709120 → (5368709120 : ℤ) < 1024 ^ (k' + 1) → k' = k) ∧
      formatBytesLoop (5368709120 : ℤ).toNat (Int.tdiv 5368709120 unit) unit 0
        = some (1024 ^ k, k - 1) ∧
      ∃ (c : Char) (y : ℚ) (s : ℕ), "KMGTPE".data.get? (k - 1) = some c ∧
        F64.ofInt 5368709120 = F64.fin y ∧ |y - (5368709120 : ℤ)| ≤ ((5368709120 : ℤ) : ℚ) / 2 ^ 53 ∧
        ((5368709120 : ℤ) < 2 ^ 53 → y = (5368709120 : ℤ)) ∧
        |(s : ℚ) / 10 - y / 1024 ^ k| ≤ 1 / 20 ∧
        (|(s : ℚ) / 10 - y / 1024 ^ k| = 1 / 20 → s % 2 = 0) ∧
        |(s : ℚ) / 10 - ((5368709120 : ℤ) : ℚ) / 1024 ^ k| ≤ 1 / 20 + 1 / 2 ^ 43 ∧
        formatBytes 5368709120 = some (toString (s / 10) ++ "." ++ toString (s % 10) ++ " " ++
          String.singleton c ++ "B") :=
  ⟨by norm_num, (C5_formatBytes 5368709120 (by norm_num)).2.1 (by norm_num)⟩

end PdfOptimize
